import Mathlib

/-!
Verification development for the liburing-rs repository: a shallow
embedding of the submission/completion queue primitives (src/queue.rs),
the error taxonomy (src/error.rs), and the asynchronous completion
multiplexers (src/async_io/tokio_impl.rs and
src/async_io/async_std_impl.rs), together with theorems settling the
frozen specification claims.

Machine integers are modelled as Nat with explicit reduction modulo
2^32 (u32) or 2^64 (u64) where the source relies on wrapping; signed
result codes (i32) are modelled as Int.
-/

/-- u32 wrapping subtraction: Rust's a.wrapping_sub(b) for a, b < 2^32. -/
def wsub32 (a b : Nat) : Nat := (a + 2 ^ 32 - b % 2 ^ 32) % 2 ^ 32

/-- The userspace view of the submission ring indices used by
src/queue.rs: the kernel-updated head (*sq.khead), the userspace tail
(sq.sqe_tail) and the ring size (sq.ring_entries), all u32. -/
structure SQState where
  khead : Nat
  sqe_tail : Nat
  ring_entries : Nat
deriving DecidableEq, Repr

/-- Well-formedness of a submission-ring state: all indices are u32
values and the number of in-flight slots never exceeds the ring size. -/
def SQWF (sq : SQState) : Prop :=
  sq.khead < 2 ^ 32 ∧ sq.sqe_tail < 2 ^ 32 ∧ sq.ring_entries < 2 ^ 32 ∧
    wsub32 sq.sqe_tail sq.khead ≤ sq.ring_entries

instance (sq : SQState) : Decidable (SQWF sq) := by
  unfold SQWF; infer_instance

/-- SubmissionQueue::space_left from src/queue.rs:
sq.ring_entries - (tail.wrapping_sub(head)), with the outer u32
subtraction also taken wrapping. -/
def space_left (sq : SQState) : Nat :=
  wsub32 sq.ring_entries (wsub32 sq.sqe_tail sq.khead)

/-- Modelled from the spec: the external liburing function
io_uring_get_sqe, absent from src/ (declared in src/sys.rs as FFI).
Per spec 4.2 a slot is handed out exactly when the buffer has a free
slot, capacity being the difference between head and tail of the
shared ring; on success the userspace tail advances by one. -/
def io_uring_get_sqe (sq : SQState) : Option SQState :=
  if wsub32 sq.sqe_tail sq.khead < sq.ring_entries then
    some { sq with sqe_tail := (sq.sqe_tail + 1) % 2 ^ 32 }
  else
    none

/-- Error taxonomy from src/error.rs. io::Error values are modelled by
their raw OS error code. -/
inductive Error where
  | Io (e : Int)
  | Setup (e : Int)
  | SubmissionQueueFull
  | CompletionQueueEmpty
  | InvalidOperation (msg : String)
  | NotSupported (msg : String)
deriving DecidableEq, Repr

/-- SubmissionQueue::get_sqe_or_err from src/queue.rs:
get_sqe().ok_or(Error::SubmissionQueueFull). -/
def get_sqe_or_err (sq : SQState) : Except Error SQState :=
  match io_uring_get_sqe sq with
  | some sq' => .ok sq'
  | none => .error .SubmissionQueueFull

/-- A fresh ring of capacity K: both indices zero. -/
def freshSQ (K : Nat) : SQState := ⟨0, 0, K⟩

/-- Iterated slot acquisition without an intervening flush. -/
def acquireN : Nat → SQState → Option SQState
  | 0, sq => some sq
  | n + 1, sq =>
    match io_uring_get_sqe sq with
    | some sq' => acquireN n sq'
    | none => none

theorem wsub32_of_le (a b : Nat) (hb : b ≤ a) (ha : a < 2 ^ 32) :
    wsub32 a b = a - b := by
  unfold wsub32; omega

theorem wsub32_succ (t h : Nat) (ht : t < 2 ^ 32) :
    wsub32 ((t + 1) % 2 ^ 32) h = (wsub32 t h + 1) % 2 ^ 32 := by
  unfold wsub32; omega

theorem space_left_eq_sub (sq : SQState) (h : SQWF sq) :
    space_left sq = sq.ring_entries - wsub32 sq.sqe_tail sq.khead := by
  obtain ⟨h1, h2, h3, h4⟩ := h
  exact wsub32_of_le _ _ h4 h3

theorem get_sqe_none_iff (sq : SQState) (h : SQWF sq) :
    io_uring_get_sqe sq = none ↔ space_left sq = 0 := by
  have hsub := space_left_eq_sub sq h
  obtain ⟨h1, h2, h3, h4⟩ := h
  unfold io_uring_get_sqe
  split <;> rename_i hlt
  · simp only [reduceCtorEq, false_iff]
    omega
  · simp only [true_iff]
    omega

theorem get_sqe_step (sq : SQState) (h : SQWF sq) (hpos : 0 < space_left sq) :
    ∃ sq', io_uring_get_sqe sq = some sq' ∧ SQWF sq' ∧
      space_left sq' = space_left sq - 1 ∧ sq'.ring_entries = sq.ring_entries := by
  have hsub := space_left_eq_sub sq h
  obtain ⟨h1, h2, h3, h4⟩ := h
  have hlt : wsub32 sq.sqe_tail sq.khead < sq.ring_entries := by omega
  refine ⟨⟨sq.khead, (sq.sqe_tail + 1) % 2 ^ 32, sq.ring_entries⟩, ?_, ?_, ?_, rfl⟩
  · unfold io_uring_get_sqe
    rw [if_pos hlt]
  · refine ⟨h1, ?_, h3, ?_⟩
    · show (sq.sqe_tail + 1) % 2 ^ 32 < 2 ^ 32
      omega
    · show wsub32 ((sq.sqe_tail + 1) % 2 ^ 32) sq.khead ≤ sq.ring_entries
      rw [wsub32_succ _ _ h2]
      omega
  · show wsub32 sq.ring_entries (wsub32 ((sq.sqe_tail + 1) % 2 ^ 32) sq.khead) = _
    rw [wsub32_succ _ _ h2]
    have hu1 : (wsub32 sq.sqe_tail sq.khead + 1) % 2 ^ 32 =
        wsub32 sq.sqe_tail sq.khead + 1 := by omega
    rw [hu1, wsub32_of_le _ _ (by omega) h3, hsub]
    omega

theorem acquireN_succ_eq (m : Nat) :
    ∀ sq : SQState, acquireN (m + 1) sq = (acquireN m sq).bind io_uring_get_sqe := by
  induction m with
  | zero =>
    intro sq
    rcases hg : io_uring_get_sqe sq with _ | sq1 <;> simp [acquireN, hg]
  | succ m ihm =>
    intro sq
    have hL : acquireN (m + 1 + 1) sq = match io_uring_get_sqe sq with
      | some sq1 => acquireN (m + 1) sq1
      | none => none := rfl
    have hR : acquireN (m + 1) sq = match io_uring_get_sqe sq with
      | some sq1 => acquireN m sq1
      | none => none := rfl
    rw [hL, hR]
    rcases hg : io_uring_get_sqe sq with _ | sq1
    · simp
    · simp only [ihm sq1]

theorem acquireN_space (n : Nat) : ∀ sq : SQState, SQWF sq → space_left sq = n →
    ∃ sq', acquireN n sq = some sq' ∧ SQWF sq' ∧ space_left sq' = 0 ∧
      sq'.ring_entries = sq.ring_entries := by
  induction n with
  | zero => intro sq hwf h0; exact ⟨sq, rfl, hwf, h0, rfl⟩
  | succ n ih =>
    intro sq hwf hn
    obtain ⟨sq1, hget, hwf1, hsp1, hre1⟩ := get_sqe_step sq hwf (by omega)
    obtain ⟨sq', hacq, hwf', hsp', hre'⟩ := ih sq1 hwf1 (by omega)
    exact ⟨sq', by simpa [acquireN, hget] using hacq, hwf', hsp', by omega⟩

theorem freshSQ_wf (K : Nat) (hK : K < 2 ^ 32) : SQWF (freshSQ K) := by
  unfold SQWF freshSQ wsub32
  simp
  omega

theorem freshSQ_space (K : Nat) (hK : K < 2 ^ 32) : space_left (freshSQ K) = K := by
  unfold space_left freshSQ wsub32
  simp
  omega

/-- C8: acquire_slot (get_sqe) returns None exactly when the
submission buffer has no free slot; the free-slot count is the ring
entry count minus the wrapping difference of the submission tail and
head indices; and on a fresh ring of capacity K, K acquisitions
without an intervening flush succeed while the (K+1)-th fails. -/
theorem C8_get_sqe_backpressure :
    (∀ sq : SQState, SQWF sq →
      ((io_uring_get_sqe sq = none ↔ space_left sq = 0) ∧
        space_left sq = sq.ring_entries - wsub32 sq.sqe_tail sq.khead)) ∧
    (∀ K : Nat, K < 2 ^ 32 →
      ∃ sq', acquireN K (freshSQ K) = some sq' ∧
        io_uring_get_sqe sq' = none ∧ acquireN (K + 1) (freshSQ K) = none) := by
  constructor
  · intro sq hwf
    exact ⟨get_sqe_none_iff sq hwf, space_left_eq_sub sq hwf⟩
  · intro K hK
    obtain ⟨sq', hacq, hwf', hsp', _⟩ :=
      acquireN_space K (freshSQ K) (freshSQ_wf K hK) (freshSQ_space K hK)
    have hnone : io_uring_get_sqe sq' = none := (get_sqe_none_iff sq' hwf').mpr hsp'
    refine ⟨sq', hacq, hnone, ?_⟩
    rw [acquireN_succ_eq K (freshSQ K), hacq]
    simpa using hnone

/-- Witness for C8 at concrete capacity K = 8. -/
theorem C8_witness :
    (SQWF (freshSQ 8) ∧
      ((io_uring_get_sqe (freshSQ 8) = none ↔ space_left (freshSQ 8) = 0) ∧
        space_left (freshSQ 8) =
          (freshSQ 8).ring_entries - wsub32 (freshSQ 8).sqe_tail (freshSQ 8).khead)) ∧
    ((8 : Nat) < 2 ^ 32 ∧
      ∃ sq', acquireN 8 (freshSQ 8) = some sq' ∧
        io_uring_get_sqe sq' = none ∧ acquireN 9 (freshSQ 8) = none) :=
  ⟨⟨by decide, C8_get_sqe_backpressure.1 (freshSQ 8) (by decide)⟩,
    ⟨by decide, C8_get_sqe_backpressure.2 8 (by decide)⟩⟩

/-- A completion queue entry as read by src/queue.rs: the correlation
tag (u64 user_data), the signed i32 result code, and the u32 flags. -/
structure CqeRec where
  user_data : Nat
  res : Int
  flags : Nat
deriving DecidableEq, Repr

/-- Cqe::result from src/queue.rs: returns the raw res field,
negative values indicating errno values. -/
def cqeResult (c : CqeRec) : Int := c.res

/-- Modelled from the spec: the external liburing function
io_uring_peek_cqe, absent from src/ (declared in src/sys.rs as FFI).
Per spec 4.3 the non-blocking inspection yields the oldest visible
completion when one exists; with none available it reports failure
(a negative return) and no record. -/
def io_uring_peek_cqe (cq : List CqeRec) : Int × Option CqeRec :=
  match cq with
  | [] => (-11, none)
  | c :: _ => (0, some c)

/-- CompletionQueue::peek_cqe from src/queue.rs: returns None when the
FFI call fails or yields no record, Some otherwise. -/
def peek_cqe (cq : List CqeRec) : Option CqeRec :=
  let r := io_uring_peek_cqe cq
  if r.1 < 0 then none
  else match r.2 with
    | none => none
    | some c => some c

/-- CompletionQueue::wait_cqe from src/queue.rs, with the outcome of
the blocking io_uring_wait_cqe_timeout FFI call (its return code and
the record it produced, if any) taken as input: a negative return is
surfaced as the OS error, a null record as CompletionQueueEmpty, and
otherwise the record is yielded. -/
def wait_cqe (ret : Int) (cqe : Option CqeRec) : Except Error CqeRec :=
  if ret < 0 then .error (.Io (-ret))
  else match cqe with
    | none => .error .CompletionQueueEmpty
    | some c => .ok c

/-- C9: with no completion available the non-blocking peek_cqe returns
None (never an error), with one available it returns it; the blocking
wait_cqe yields a completion once the OS call reports one, and when
the OS wait call itself fails with a negative return it surfaces that
OS error. -/
theorem C9_empty_completion_reads :
    (∀ cq : List CqeRec, cq = [] → peek_cqe cq = none) ∧
    (∀ (cq : List CqeRec) (c : CqeRec) (rest : List CqeRec),
      cq = c :: rest → peek_cqe cq = some c) ∧
    (∀ (ret : Int) (c : CqeRec), 0 ≤ ret → wait_cqe ret (some c) = .ok c) ∧
    (∀ (ret : Int) (cqe : Option CqeRec), ret < 0 →
      wait_cqe ret cqe = .error (.Io (-ret))) := by
  refine ⟨?_, ?_, ?_, ?_⟩
  · intro cq h; subst h; rfl
  · intro cq c rest h; subst h; rfl
  · intro ret c h
    unfold wait_cqe
    rw [if_neg (by omega)]
  · intro ret cqe h
    unfold wait_cqe
    rw [if_pos h]

/-- Witness for C9 at concrete inputs. -/
theorem C9_witness :
    peek_cqe [] = none ∧
    peek_cqe [⟨7, 0, 0⟩] = some ⟨7, 0, 0⟩ ∧
    wait_cqe 0 (some ⟨7, 3, 0⟩) = .ok ⟨7, 3, 0⟩ ∧
    wait_cqe (-4) none = .error (.Io 4) :=
  ⟨C9_empty_completion_reads.1 [] rfl,
    C9_empty_completion_reads.2.1 [⟨7, 0, 0⟩] ⟨7, 0, 0⟩ [] rfl,
    C9_empty_completion_reads.2.2.1 0 ⟨7, 3, 0⟩ (by decide),
    by simpa using C9_empty_completion_reads.2.2.2 (-4) none (by decide)⟩

/-! ## The tokio completion multiplexer (src/async_io/tokio_impl.rs) -/

/-- The waiting-party table (HashMap<u64, Waker> in the source) as an
association list from correlation tag to an abstract waker identity. -/
def WTable := List (Nat × Nat)

/-- HashMap::get on the table. -/
def wfind (t : Nat) : List (Nat × Nat) → Option Nat
  | [] => none
  | (k, w) :: rest => if k = t then some w else wfind t rest

/-- HashMap::remove on the table (per-key, all bindings of the key). -/
def werase (t : Nat) : List (Nat × Nat) → List (Nat × Nat)
  | [] => []
  | (k, w) :: rest => if k = t then werase t rest else (k, w) :: werase t rest

/-- HashMap::insert on the table: replaces any binding of the key. -/
def winsert (t w : Nat) (l : List (Nat × Nat)) : List (Nat × Nat) :=
  (t, w) :: werase t l

/-- The registered tags of a table. -/
def wkeys (l : List (Nat × Nat)) : List Nat := l.map Prod.fst

/-- Observable events of one activation of SubmitFuture::poll, in
program order. A completion handle is observed when peek_cqe yields
it and retired when its destructor marks it seen at the end of the
peek block; woke records a foreign waker being invoked; decided marks
the activation's own suspend-or-resolve decision (its return). -/
inductive Ev where
  | observed (tag : Nat) (res : Int)
  | retired (tag : Nat)
  | woke (w : Nat) (tag : Nat)
  | decided
deriving DecidableEq, Repr

/-- The state behind the mutex of the tokio AsyncIoUring
(AsyncIoUringInner): the ring (submission indices plus the visible
completion buffer), the count of retired completions, the
waiting-party table and the u64 tag counter. -/
structure MuxInner where
  sq : SQState
  cq : List CqeRec
  seen : Nat
  wakers : List (Nat × Nat)
  next_user_data : Nat
deriving DecidableEq, Repr

/-- The per-future state of SubmitFuture: whether the operation is
still unsubmitted (op: Option<Op> is Some) and the tag it was
assigned (user_data: Option<u64>). -/
structure FutState where
  pendingOp : Bool
  user_data : Option Nat
deriving DecidableEq, Repr

/-- Outcome of AsyncFd::poll_read_ready as seen by poll. -/
inductive ReadyPoll where
  | readyOk
  | readyErr (e : Int)
  | pending
deriving DecidableEq, Repr

/-- Environment of one poll activation: the return code the kernel
gives io_uring_submit, and the reactor's readiness answer. -/
structure PollEnv where
  submitRet : Int
  readReady : ReadyPoll
deriving DecidableEq, Repr

/-- IoUring::submit from src/uring.rs: a negative kernel return code
becomes an Io error carrying the negated code; otherwise the count of
submitted entries is returned. -/
def ring_submit (ret : Int) : Except Error Nat :=
  if ret < 0 then .error (.Io (-ret)) else .ok ret.toNat

instance exceptDecEq {ε α : Type} [DecidableEq ε] [DecidableEq α] :
    DecidableEq (Except ε α)
  | .error e, .error f => decidable_of_iff (e = f) (by simp)
  | .error _, .ok _ => isFalse (by simp)
  | .ok _, .error _ => isFalse (by simp)
  | .ok a, .ok b => decidable_of_iff (a = b) (by simp)

/-- Result of Future::poll. -/
inductive PollOut where
  | ready (r : Except Error Int)
  | pending
deriving DecidableEq, Repr

/-- The completion-drain loop of SubmitFuture::poll (the loop over
peek_cqe): each pass peeks one completion, retires it as the peek
block ends, then either resolves (own tag, removing the own record),
wakes and removes the matching foreign record, or — with no record —
discards the completion. Returns the table, the remaining buffer, the
retired count, the event trace, and the own result if resolved. -/
def drainLoop (ud : Nat) (wakers : List (Nat × Nat)) (cq : List CqeRec)
    (seen : Nat) (tr : List Ev) :
    List (Nat × Nat) × List CqeRec × Nat × List Ev × Option Int :=
  match cq with
  | [] => (wakers, [], seen, tr, none)
  | c :: rest =>
    let tr1 := tr ++ [Ev.observed c.user_data c.res, Ev.retired c.user_data]
    if c.user_data = ud then
      (werase ud wakers, rest, seen + 1, tr1, some c.res)
    else
      let tr2 := match wfind c.user_data wakers with
        | some w => tr1 ++ [Ev.woke w c.user_data]
        | none => tr1
      drainLoop ud (werase c.user_data wakers) rest (seen + 1) tr2

/-- The first-activation block of SubmitFuture::poll (if let Some(op)
= future.op.take()): allocate the next tag from the counter, acquire
a submission slot, submit to the kernel and register the waker; a
None slot or a failed submit short-circuits with the error — note
the tag counter has already advanced and the op has been taken. -/
def submitStep (env : PollEnv) (inner : MuxInner) (fut : FutState)
    (w : Nat) : MuxInner × FutState × Option Error :=
  if fut.pendingOp then
    let ud := inner.next_user_data
    let inner1 := { inner with next_user_data := (inner.next_user_data + 1) % 2 ^ 64 }
    let fut1 : FutState := { pendingOp := false, user_data := some ud }
    match io_uring_get_sqe inner1.sq with
    | none => (inner1, fut1, some Error.SubmissionQueueFull)
    | some sq1 =>
      let inner2 := { inner1 with sq := sq1 }
      match ring_submit env.submitRet with
      | .error e => (inner2, fut1, some e)
      | .ok _ =>
        ({ inner2 with wakers := winsert ud w inner2.wakers }, fut1, none)
  else
    (inner, fut, none)

/-- The drain-then-decide tail of SubmitFuture::poll: run the drain
loop; on the own completion resolve with its result, otherwise ask
the reactor for readiness and either re-register the waker and
suspend, or surface the reactor's error. -/
def drainAndDecide (env : PollEnv) (inner1 : MuxInner) (fut1 : FutState)
    (w : Nat) : MuxInner × FutState × PollOut × List Ev :=
  let ud := fut1.user_data.getD 0
  match drainLoop ud inner1.wakers inner1.cq inner1.seen [] with
  | (wakers1, cq1, seen1, tr, some r) =>
    ({ inner1 with wakers := wakers1, cq := cq1, seen := seen1 }, fut1,
      .ready (.ok r), tr ++ [Ev.decided])
  | (wakers1, cq1, seen1, tr, none) =>
    let inner2 := { inner1 with wakers := wakers1, cq := cq1, seen := seen1 }
    match env.readReady with
    | .readyOk =>
      ({ inner2 with wakers := winsert ud w inner2.wakers }, fut1,
        .pending, tr ++ [Ev.decided])
    | .readyErr e =>
      (inner2, fut1, .ready (.error (.Io e)), tr ++ [Ev.decided])
    | .pending =>
      ({ inner2 with wakers := winsert ud w inner2.wakers }, fut1,
        .pending, tr ++ [Ev.decided])

/-- SubmitFuture::poll from src/async_io/tokio_impl.rs, translated
clause by clause. Given the poll environment, the locked inner state,
the future state and the current task's waker, it returns the new
inner state, the new future state, the poll outcome and the event
trace of this activation. -/
def submitFuturePoll (env : PollEnv) (inner : MuxInner) (fut : FutState)
    (w : Nat) : MuxInner × FutState × PollOut × List Ev :=
  match submitStep env inner fut w with
  | (inner1, fut1, some e) => (inner1, fut1, .ready (.error e), [Ev.decided])
  | (inner1, fut1, none) => drainAndDecide env inner1 fut1 w

/-! ## The async-std multiplexer (src/async_io/async_std_impl.rs) -/

/-- The ring state seen by the async-std AsyncIoUring: submission
indices, visible completion buffer and retired count. -/
structure StdRing where
  sq : SQState
  cq : List CqeRec
  seen : Nat
deriving DecidableEq, Repr

/-- AsyncIoUring::submit_op from src/async_io/async_std_impl.rs,
the closure run under the ring lock: it stamps the fixed tag
user_data = 1 on the acquired slot, submits, then blocks on wait_cqe
and returns the completion's result. The second component is the
correlation tag the call stamped on its slot; waitRet is the return
code of the blocking OS wait. -/
def asyncStdSubmitOp (submitRet waitRet : Int) (r : StdRing) :
    StdRing × Nat × Except Error Int :=
  let user_data : Nat := 1
  match io_uring_get_sqe r.sq with
  | none => (r, user_data, .error .SubmissionQueueFull)
  | some sq1 =>
    let r1 := { r with sq := sq1 }
    match ring_submit submitRet with
    | .error e => (r1, user_data, .error e)
    | .ok _ =>
      match wait_cqe waitRet r1.cq.head? with
      | .error e => (r1, user_data, .error e)
      | .ok c =>
        ({ r1 with cq := r1.cq.tail, seen := r1.seen + 1 }, user_data,
          .ok (cqeResult c))

/-! ## Waker-table lemmas -/

theorem wfind_werase_self (t : Nat) (l : List (Nat × Nat)) :
    wfind t (werase t l) = none := by
  induction l with
  | nil => rfl
  | cons p rest ih =>
    obtain ⟨k, w⟩ := p
    unfold werase
    by_cases hk : k = t
    · rw [if_pos hk]; exact ih
    · rw [if_neg hk]
      unfold wfind
      rw [if_neg hk]
      exact ih

theorem wfind_werase_ne (t u : Nat) (l : List (Nat × Nat)) (h : u ≠ t) :
    wfind u (werase t l) = wfind u l := by
  induction l with
  | nil => rfl
  | cons p rest ih =>
    obtain ⟨k, w⟩ := p
    by_cases hk : k = t
    · have e1 : werase t ((k, w) :: rest) = werase t rest := by
        simp [werase, hk]
      have e2 : wfind u ((k, w) :: rest) = wfind u rest := by
        simp only [wfind]
        rw [if_neg (by omega)]
      rw [e1, e2]
      exact ih
    · have e1 : werase t ((k, w) :: rest) = (k, w) :: werase t rest := by
        simp [werase, hk]
      rw [e1]
      simp only [wfind]
      rw [ih]

theorem wkeys_werase_mem (t k : Nat) (l : List (Nat × Nat))
    (h : k ∈ wkeys (werase t l)) : k ∈ wkeys l ∧ k ≠ t := by
  induction l with
  | nil => exact absurd h (by simp [werase, wkeys])
  | cons p rest ih =>
    obtain ⟨k0, w0⟩ := p
    unfold werase at h
    by_cases hk : k0 = t
    · rw [if_pos hk] at h
      obtain ⟨h1, h2⟩ := ih h
      exact ⟨by simp [wkeys]; right; simpa [wkeys] using h1, h2⟩
    · rw [if_neg hk] at h
      simp only [wkeys, List.map_cons, List.mem_cons] at h
      rcases h with h | h
      · exact ⟨by simp [wkeys, h], by omega⟩
      · obtain ⟨h1, h2⟩ := ih (by simpa [wkeys] using h)
        exact ⟨by simp [wkeys]; right; simpa [wkeys] using h1, h2⟩

theorem wkeys_werase_nodup (t : Nat) (l : List (Nat × Nat))
    (h : (wkeys l).Nodup) : (wkeys (werase t l)).Nodup := by
  induction l with
  | nil => simp [werase, wkeys]
  | cons p rest ih =>
    obtain ⟨k0, w0⟩ := p
    simp only [wkeys, List.map_cons, List.nodup_cons] at h
    obtain ⟨hk0, hrest⟩ := h
    unfold werase
    by_cases hk : k0 = t
    · rw [if_pos hk]; exact ih hrest
    · rw [if_neg hk]
      simp only [wkeys, List.map_cons, List.nodup_cons]
      refine ⟨?_, ih hrest⟩
      intro hmem
      exact hk0 (wkeys_werase_mem t k0 rest hmem).1

theorem wkeys_winsert_nodup (t w : Nat) (l : List (Nat × Nat))
    (h : (wkeys l).Nodup) : (wkeys (winsert t w l)).Nodup := by
  unfold winsert
  simp only [wkeys, List.map_cons, List.nodup_cons]
  refine ⟨?_, wkeys_werase_nodup t l h⟩
  intro hmem
  exact (wkeys_werase_mem t t l hmem).2 rfl

theorem wkeys_winsert_mem (t w k : Nat) (l : List (Nat × Nat))
    (h : k ∈ wkeys (winsert t w l)) : k = t ∨ k ∈ wkeys l := by
  unfold winsert at h
  simp only [wkeys, List.map_cons, List.mem_cons] at h
  rcases h with h | h
  · exact Or.inl h
  · exact Or.inr (wkeys_werase_mem t k l (by simpa [wkeys] using h)).1

theorem wfind_mem_wkeys (t v : Nat) (l : List (Nat × Nat))
    (h : wfind t l = some v) : t ∈ wkeys l := by
  induction l with
  | nil => exact absurd h (by simp [wfind])
  | cons p rest ih =>
    obtain ⟨k, w⟩ := p
    unfold wfind at h
    by_cases hk : k = t
    · simp [wkeys, hk]
    · rw [if_neg hk] at h
      simp [wkeys]
      right
      simpa [wkeys] using ih h

theorem wfind_none_not_mem (t : Nat) (l : List (Nat × Nat))
    (h : wfind t l = none) : t ∉ wkeys l := by
  induction l with
  | nil => simp [wkeys]
  | cons p rest ih =>
    obtain ⟨k, w⟩ := p
    unfold wfind at h
    by_cases hk : k = t
    · rw [if_pos hk] at h; exact absurd h (by simp)
    · rw [if_neg hk] at h
      simp only [wkeys, List.map_cons, List.mem_cons]
      push_neg
      exact ⟨fun he => hk he.symm, by simpa [wkeys] using ih h⟩

/-! ## Drain-loop lemmas -/

theorem drainLoop_nil (ud : Nat) (wakers : List (Nat × Nat)) (seen : Nat)
    (tr : List Ev) : drainLoop ud wakers [] seen tr = (wakers, [], seen, tr, none) := rfl

theorem drainLoop_cons_own (ud : Nat) (wakers : List (Nat × Nat)) (c : CqeRec)
    (rest : List CqeRec) (seen : Nat) (tr : List Ev) (h : c.user_data = ud) :
    drainLoop ud wakers (c :: rest) seen tr =
      (werase ud wakers, rest, seen + 1,
        tr ++ [Ev.observed c.user_data c.res, Ev.retired c.user_data],
        some c.res) := by
  simp only [drainLoop]
  rw [if_pos h]

theorem drainLoop_cons_hit (ud : Nat) (wakers : List (Nat × Nat)) (c : CqeRec)
    (rest : List CqeRec) (seen : Nat) (tr : List Ev) (v : Nat)
    (h : c.user_data ≠ ud) (hf : wfind c.user_data wakers = some v) :
    drainLoop ud wakers (c :: rest) seen tr =
      drainLoop ud (werase c.user_data wakers) rest (seen + 1)
        (tr ++ [Ev.observed c.user_data c.res, Ev.retired c.user_data,
          Ev.woke v c.user_data]) := by
  simp only [drainLoop]
  rw [if_neg h, hf]
  simp

theorem drainLoop_cons_miss (ud : Nat) (wakers : List (Nat × Nat)) (c : CqeRec)
    (rest : List CqeRec) (seen : Nat) (tr : List Ev)
    (h : c.user_data ≠ ud) (hf : wfind c.user_data wakers = none) :
    drainLoop ud wakers (c :: rest) seen tr =
      drainLoop ud (werase c.user_data wakers) rest (seen + 1)
        (tr ++ [Ev.observed c.user_data c.res, Ev.retired c.user_data]) := by
  simp only [drainLoop]
  rw [if_neg h, hf]

/-- Is the event an observation of a completion handle? -/
def evIsObs : Ev → Bool
  | .observed _ _ => true
  | _ => false

/-- Is the event an observation of a completion with this tag? -/
def evObsTag (t : Nat) : Ev → Bool
  | .observed u _ => u == t
  | _ => false

/-- Is the event the retirement of a completion with this tag? -/
def evRetTag (t : Nat) : Ev → Bool
  | .retired u => u == t
  | _ => false

theorem drainLoop_trace (ud : Nat) :
    ∀ (cq : List CqeRec) (wakers : List (Nat × Nat)) (seen : Nat) (tr0 : List Ev),
    ∃ ntr : List Ev,
      (drainLoop ud wakers cq seen tr0).2.2.2.1 = tr0 ++ ntr ∧
      Ev.decided ∉ ntr ∧
      (drainLoop ud wakers cq seen tr0).2.2.1 = seen + ntr.countP evIsObs ∧
      (∀ t, ntr.countP (evObsTag t) = ntr.countP (evRetTag t)) := by
  intro cq
  induction cq with
  | nil =>
    intro wakers seen tr0
    exact ⟨[], by simp [drainLoop_nil], by simp, by simp [drainLoop_nil], by simp⟩
  | cons c rest ih =>
    intro wakers seen tr0
    by_cases hown : c.user_data = ud
    · refine ⟨[Ev.observed c.user_data c.res, Ev.retired c.user_data], ?_, ?_, ?_, ?_⟩
      · rw [drainLoop_cons_own ud wakers c rest seen tr0 hown]
      · simp
      · rw [drainLoop_cons_own ud wakers c rest seen tr0 hown]
        simp [List.countP, List.countP.go, evIsObs]
      · intro t
        simp [List.countP, List.countP.go, evObsTag, evRetTag]
    · rcases hf : wfind c.user_data wakers with _ | v
      · obtain ⟨ntr1, htr, hdec, hseen, hcnt⟩ :=
          ih (werase c.user_data wakers) (seen + 1)
            (tr0 ++ [Ev.observed c.user_data c.res, Ev.retired c.user_data])
        refine ⟨[Ev.observed c.user_data c.res, Ev.retired c.user_data] ++ ntr1,
          ?_, ?_, ?_, ?_⟩
        · rw [drainLoop_cons_miss ud wakers c rest seen tr0 hown hf, htr]
          simp
        · simp only [List.mem_append] at *
          rintro (hd | hd)
          · simp at hd
          · exact hdec hd
        · rw [drainLoop_cons_miss ud wakers c rest seen tr0 hown hf, hseen]
          simp [List.countP_append, List.countP_cons, evIsObs]
          omega
        · intro t
          simp only [List.countP_append, hcnt t]
          simp [List.countP, List.countP.go, evObsTag, evRetTag]
      · obtain ⟨ntr1, htr, hdec, hseen, hcnt⟩ :=
          ih (werase c.user_data wakers) (seen + 1)
            (tr0 ++ [Ev.observed c.user_data c.res, Ev.retired c.user_data,
              Ev.woke v c.user_data])
        refine ⟨[Ev.observed c.user_data c.res, Ev.retired c.user_data,
          Ev.woke v c.user_data] ++ ntr1, ?_, ?_, ?_, ?_⟩
        · rw [drainLoop_cons_hit ud wakers c rest seen tr0 v hown hf, htr]
          simp
        · simp only [List.mem_append] at *
          rintro (hd | hd)
          · simp at hd
          · exact hdec hd
        · rw [drainLoop_cons_hit ud wakers c rest seen tr0 v hown hf, hseen]
          simp [List.countP_append, List.countP_cons, evIsObs]
          omega
        · intro t
          simp only [List.countP_append, hcnt t]
          simp [List.countP, List.countP.go, evObsTag, evRetTag]

theorem drainLoop_keys (ud : Nat) :
    ∀ (cq : List CqeRec) (wakers : List (Nat × Nat)) (seen : Nat) (tr0 : List Ev),
    (∀ k, k ∈ wkeys (drainLoop ud wakers cq seen tr0).1 → k ∈ wkeys wakers) ∧
    ((wkeys wakers).Nodup → (wkeys (drainLoop ud wakers cq seen tr0).1).Nodup) := by
  intro cq
  induction cq with
  | nil =>
    intro wakers seen tr0
    exact ⟨fun k hk => by simpa [drainLoop_nil] using hk, fun h => by simpa [drainLoop_nil]⟩
  | cons c rest ih =>
    intro wakers seen tr0
    by_cases hown : c.user_data = ud
    · rw [drainLoop_cons_own ud wakers c rest seen tr0 hown]
      exact ⟨fun k hk => (wkeys_werase_mem ud k wakers hk).1,
        fun h => wkeys_werase_nodup ud wakers h⟩
    · rcases hf : wfind c.user_data wakers with _ | v
      · rw [drainLoop_cons_miss ud wakers c rest seen tr0 hown hf]
        obtain ⟨hsub, hnd⟩ := ih (werase c.user_data wakers) (seen + 1)
          (tr0 ++ [Ev.observed c.user_data c.res, Ev.retired c.user_data])
        exact ⟨fun k hk => (wkeys_werase_mem _ k wakers (hsub k hk)).1,
          fun h => hnd (wkeys_werase_nodup _ wakers h)⟩
      · rw [drainLoop_cons_hit ud wakers c rest seen tr0 v hown hf]
        obtain ⟨hsub, hnd⟩ := ih (werase c.user_data wakers) (seen + 1)
          (tr0 ++ [Ev.observed c.user_data c.res, Ev.retired c.user_data,
            Ev.woke v c.user_data])
        exact ⟨fun k hk => (wkeys_werase_mem _ k wakers (hsub k hk)).1,
          fun h => hnd (wkeys_werase_nodup _ wakers h)⟩

theorem drainLoop_find_none (ud t : Nat) :
    ∀ (cq : List CqeRec) (wakers : List (Nat × Nat)) (seen : Nat) (tr0 : List Ev),
    wfind t wakers = none →
    wfind t (drainLoop ud wakers cq seen tr0).1 = none := by
  intro cq
  induction cq with
  | nil =>
    intro wakers seen tr0 h
    simpa [drainLoop_nil]
  | cons c rest ih =>
    intro wakers seen tr0 h
    have herase : wfind t (werase c.user_data wakers) = none := by
      by_cases hc : t = c.user_data
      · rw [hc]; exact wfind_werase_self _ wakers
      · rw [wfind_werase_ne _ _ wakers hc]; exact h
    by_cases hown : c.user_data = ud
    · rw [drainLoop_cons_own ud wakers c rest seen tr0 hown]
      by_cases hu : t = ud
      · rw [hu]; exact wfind_werase_self _ wakers
      · rw [wfind_werase_ne _ _ wakers hu]; exact h
    · rcases hf : wfind c.user_data wakers with _ | v
      · rw [drainLoop_cons_miss ud wakers c rest seen tr0 hown hf]
        exact ih _ _ _ herase
      · rw [drainLoop_cons_hit ud wakers c rest seen tr0 v hown hf]
        exact ih _ _ _ herase

theorem drainLoop_tr0_mono (ud : Nat) (cq : List CqeRec)
    (wakers : List (Nat × Nat)) (seen : Nat) (tr0 : List Ev) (e : Ev)
    (h : e ∈ tr0) : e ∈ (drainLoop ud wakers cq seen tr0).2.2.2.1 := by
  obtain ⟨ntr, htr, _, _, _⟩ := drainLoop_trace ud cq wakers seen tr0
  rw [htr]
  exact List.mem_append_left _ h

theorem drainLoop_removed (ud t : Nat) :
    ∀ (cq : List CqeRec) (wakers : List (Nat × Nat)) (seen : Nat) (tr0 : List Ev)
    (r : Int), t ≠ ud →
    Ev.observed t r ∈ (drainLoop ud wakers cq seen tr0).2.2.2.1 →
    Ev.observed t r ∉ tr0 →
    wfind t (drainLoop ud wakers cq seen tr0).1 = none := by
  intro cq
  induction cq with
  | nil =>
    intro wakers seen tr0 r hne hmem hnot
    rw [drainLoop_nil] at hmem
    exact absurd hmem hnot
  | cons c rest ih =>
    intro wakers seen tr0 r hne hmem hnot
    by_cases hown : c.user_data = ud
    · rw [drainLoop_cons_own ud wakers c rest seen tr0 hown] at hmem ⊢
      simp only [List.mem_append, List.mem_cons] at hmem
      rcases hmem with h0 | h0
      · exact absurd h0 hnot
      · simp only [List.mem_cons, List.not_mem_nil] at h0
        rcases h0 with h0 | h0 | h0
        · exact absurd (by injection h0 with h1 _; exact h1.symm ▸ hown) hne
        · exact absurd h0 (by simp)
        · exact absurd h0 (by simp)
    · by_cases hct : c.user_data = t
      · rcases hf : wfind c.user_data wakers with _ | v
        · rw [drainLoop_cons_miss ud wakers c rest seen tr0 hown hf]
          apply drainLoop_find_none
          rw [← hct]
          exact wfind_werase_self _ wakers
        · rw [drainLoop_cons_hit ud wakers c rest seen tr0 v hown hf]
          apply drainLoop_find_none
          rw [← hct]
          exact wfind_werase_self _ wakers
      · rcases hf : wfind c.user_data wakers with _ | v
        · rw [drainLoop_cons_miss ud wakers c rest seen tr0 hown hf] at hmem ⊢
          refine ih _ _ _ r hne hmem ?_
          simp only [List.mem_append, List.mem_cons, List.not_mem_nil]
          push_neg
          exact ⟨hnot, by intro h0; injection h0 with h1 _; exact hct h1.symm, by simp, by simp⟩
        · rw [drainLoop_cons_hit ud wakers c rest seen tr0 v hown hf] at hmem ⊢
          refine ih _ _ _ r hne hmem ?_
          simp only [List.mem_append, List.mem_cons, List.not_mem_nil]
          push_neg
          refine ⟨hnot, by intro h0; injection h0 with h1 _; exact hct h1.symm, by simp, by simp, by simp⟩

theorem drainLoop_woke (ud t v : Nat) :
    ∀ (cq : List CqeRec) (wakers : List (Nat × Nat)) (seen : Nat) (tr0 : List Ev)
    (r : Int), t ≠ ud → wfind t wakers = some v →
    Ev.observed t r ∈ (drainLoop ud wakers cq seen tr0).2.2.2.1 →
    Ev.observed t r ∉ tr0 →
    Ev.woke v t ∈ (drainLoop ud wakers cq seen tr0).2.2.2.1 := by
  intro cq
  induction cq with
  | nil =>
    intro wakers seen tr0 r hne hf hmem hnot
    rw [drainLoop_nil] at hmem
    exact absurd hmem hnot
  | cons c rest ih =>
    intro wakers seen tr0 r hne hf hmem hnot
    by_cases hown : c.user_data = ud
    · rw [drainLoop_cons_own ud wakers c rest seen tr0 hown] at hmem
      simp only [List.mem_append, List.mem_cons, List.not_mem_nil] at hmem
      rcases hmem with h0 | h0 | h0 | h0
      · exact absurd h0 hnot
      · exact absurd (by injection h0 with h1 _; exact h1.symm ▸ hown) hne
      · exact absurd h0 (by simp)
      · exact absurd h0 (by simp)
    · by_cases hct : c.user_data = t
      · have hfv : wfind c.user_data wakers = some v := by rw [hct]; exact hf
        rw [drainLoop_cons_hit ud wakers c rest seen tr0 v hown hfv] at hmem ⊢
        apply drainLoop_tr0_mono
        rw [hct]
        simp
      · rcases hfc : wfind c.user_data wakers with _ | v1
        · rw [drainLoop_cons_miss ud wakers c rest seen tr0 hown hfc] at hmem ⊢
          refine ih _ _ _ r hne ?_ hmem ?_
          · rw [wfind_werase_ne _ _ wakers (fun h0 => hct h0.symm)]
            exact hf
          · simp only [List.mem_append, List.mem_cons, List.not_mem_nil]
            push_neg
            exact ⟨hnot, by intro h0; injection h0 with h1 _; exact hct h1.symm,
              by simp, by simp⟩
        · rw [drainLoop_cons_hit ud wakers c rest seen tr0 v1 hown hfc] at hmem ⊢
          refine ih _ _ _ r hne ?_ hmem ?_
          · rw [wfind_werase_ne _ _ wakers (fun h0 => hct h0.symm)]
            exact hf
          · simp only [List.mem_append, List.mem_cons, List.not_mem_nil]
            push_neg
            exact ⟨hnot, by intro h0; injection h0 with h1 _; exact hct h1.symm,
              by simp, by simp, by simp⟩

theorem drainLoop_trichotomy (ud : Nat) :
    ∀ (cq : List CqeRec) (wakers : List (Nat × Nat)) (seen : Nat) (tr0 : List Ev)
    (t : Nat) (r : Int),
    Ev.observed t r ∈ (drainLoop ud wakers cq seen tr0).2.2.2.1 →
    Ev.observed t r ∉ tr0 →
    t = ud ∨ (∃ v, Ev.woke v t ∈ (drainLoop ud wakers cq seen tr0).2.2.2.1) ∨
      wfind t wakers = none := by
  intro cq
  induction cq with
  | nil =>
    intro wakers seen tr0 t r hmem hnot
    rw [drainLoop_nil] at hmem
    exact absurd hmem hnot
  | cons c rest ih =>
    intro wakers seen tr0 t r hmem hnot
    by_cases hown : c.user_data = ud
    · rw [drainLoop_cons_own ud wakers c rest seen tr0 hown] at hmem
      simp only [List.mem_append, List.mem_cons, List.not_mem_nil] at hmem
      rcases hmem with h0 | h0 | h0 | h0
      · exact absurd h0 hnot
      · exact Or.inl (by injection h0 with h1 _; exact h1.trans hown)
      · exact absurd h0 (by simp)
      · exact absurd h0 (by simp)
    · by_cases hct : c.user_data = t
      · rcases hfc : wfind c.user_data wakers with _ | v
        · exact Or.inr (Or.inr (by rw [← hct]; exact hfc))
        · refine Or.inr (Or.inl ⟨v, ?_⟩)
          rw [drainLoop_cons_hit ud wakers c rest seen tr0 v hown hfc]
          apply drainLoop_tr0_mono
          rw [hct]
          simp
      · rcases hfc : wfind c.user_data wakers with _ | v1
        · rw [drainLoop_cons_miss ud wakers c rest seen tr0 hown hfc] at hmem ⊢
          have hnot1 : Ev.observed t r ∉ tr0 ++
              [Ev.observed c.user_data c.res, Ev.retired c.user_data] := by
            simp only [List.mem_append, List.mem_cons, List.not_mem_nil]
            push_neg
            exact ⟨hnot, by intro h0; injection h0 with h1 _; exact hct h1.symm,
              by simp, by simp⟩
          rcases ih _ _ _ t r hmem hnot1 with h1 | h1 | h1
          · exact Or.inl h1
          · exact Or.inr (Or.inl h1)
          · rw [wfind_werase_ne _ _ wakers (fun h0 => hct h0.symm)] at h1
            exact Or.inr (Or.inr h1)
        · rw [drainLoop_cons_hit ud wakers c rest seen tr0 v1 hown hfc] at hmem ⊢
          have hnot1 : Ev.observed t r ∉ tr0 ++
              [Ev.observed c.user_data c.res, Ev.retired c.user_data,
                Ev.woke v1 c.user_data] := by
            simp only [List.mem_append, List.mem_cons, List.not_mem_nil]
            push_neg
            exact ⟨hnot, by intro h0; injection h0 with h1 _; exact hct h1.symm,
              by simp, by simp, by simp⟩
          rcases ih _ _ _ t r hmem hnot1 with h1 | h1 | h1
          · exact Or.inl h1
          · exact Or.inr (Or.inl h1)
          · rw [wfind_werase_ne _ _ wakers (fun h0 => hct h0.symm)] at h1
            exact Or.inr (Or.inr h1)

theorem drainLoop_resolve (ud : Nat) :
    ∀ (pre : List CqeRec) (c : CqeRec) (rest : List CqeRec)
    (wakers : List (Nat × Nat)) (seen : Nat) (tr0 : List Ev),
    (∀ c1 ∈ pre, c1.user_data ≠ ud) → c.user_data = ud →
    (drainLoop ud wakers (pre ++ c :: rest) seen tr0).2.2.2.2 = some c.res ∧
    (drainLoop ud wakers (pre ++ c :: rest) seen tr0).2.1 = rest := by
  intro pre
  induction pre with
  | nil =>
    intro c rest wakers seen tr0 hpre hc
    rw [List.nil_append, drainLoop_cons_own ud wakers c rest seen tr0 hc]
    exact ⟨rfl, rfl⟩
  | cons p pre1 ih =>
    intro c rest wakers seen tr0 hpre hc
    have hp : p.user_data ≠ ud := hpre p (by simp)
    rw [List.cons_append]
    rcases hfc : wfind p.user_data wakers with _ | v
    · rw [drainLoop_cons_miss ud wakers p (pre1 ++ c :: rest) seen tr0 hp hfc]
      exact ih c rest _ _ _ (fun c1 h1 => hpre c1 (by simp [h1])) hc
    · rw [drainLoop_cons_hit ud wakers p (pre1 ++ c :: rest) seen tr0 v hp hfc]
      exact ih c rest _ _ _ (fun c1 h1 => hpre c1 (by simp [h1])) hc

/-! ## SubmitFuture::poll computation lemmas -/

theorem submitStep_not_pending (env : PollEnv) (inner : MuxInner)
    (fut : FutState) (w : Nat) (h : fut.pendingOp = false) :
    submitStep env inner fut w = (inner, fut, none) := by
  simp [submitStep, h]

theorem submitStep_full (env : PollEnv) (inner : MuxInner) (fut : FutState)
    (w : Nat) (h : fut.pendingOp = true)
    (hg : io_uring_get_sqe inner.sq = none) :
    submitStep env inner fut w =
      ({ inner with next_user_data := (inner.next_user_data + 1) % 2 ^ 64 },
        ⟨false, some inner.next_user_data⟩, some Error.SubmissionQueueFull) := by
  simp [submitStep, h, hg]

theorem submitStep_submit_err (env : PollEnv) (inner : MuxInner)
    (fut : FutState) (w : Nat) (sq1 : SQState) (h : fut.pendingOp = true)
    (hg : io_uring_get_sqe inner.sq = some sq1) (hr : env.submitRet < 0) :
    submitStep env inner fut w =
      ({ inner with
          next_user_data := ((inner.next_user_data + 1) % 2 ^ 64)
          sq := sq1 },
        ⟨false, some inner.next_user_data⟩,
        some (Error.Io (-env.submitRet))) := by
  simp [submitStep, h, hg, ring_submit, hr]

theorem submitStep_ok (env : PollEnv) (inner : MuxInner) (fut : FutState)
    (w : Nat) (sq1 : SQState) (h : fut.pendingOp = true)
    (hg : io_uring_get_sqe inner.sq = some sq1) (hr : 0 ≤ env.submitRet) :
    submitStep env inner fut w =
      ({ inner with
          next_user_data := ((inner.next_user_data + 1) % 2 ^ 64)
          sq := sq1
          wakers := winsert inner.next_user_data w inner.wakers },
        ⟨false, some inner.next_user_data⟩, none) := by
  have hnlt : ¬ env.submitRet < 0 := by omega
  simp [submitStep, h, hg, ring_submit, hnlt]

theorem poll_of_step_err (env : PollEnv) (inner : MuxInner) (fut : FutState)
    (w : Nat) (inner1 : MuxInner) (fut1 : FutState) (e : Error)
    (h : submitStep env inner fut w = (inner1, fut1, some e)) :
    submitFuturePoll env inner fut w =
      (inner1, fut1, .ready (.error e), [Ev.decided]) := by
  simp [submitFuturePoll, h]

theorem poll_of_step_ok (env : PollEnv) (inner : MuxInner) (fut : FutState)
    (w : Nat) (inner1 : MuxInner) (fut1 : FutState)
    (h : submitStep env inner fut w = (inner1, fut1, none)) :
    submitFuturePoll env inner fut w = drainAndDecide env inner1 fut1 w := by
  simp [submitFuturePoll, h]

/-- C5: on a first activation finding no free submission slot, poll
returns immediately with the distinct SubmissionQueueFull error —
distinguishable from every other failure constructor — and neither
retries nor queues anything: the submission indices, the completion
buffer and the waiting-party table are all left untouched. -/
theorem C5_backpressure_immediate (env : PollEnv) (inner : MuxInner)
    (fut : FutState) (w : Nat) (hp : fut.pendingOp = true)
    (hwf : SQWF inner.sq) (hfull : space_left inner.sq = 0) :
    (submitFuturePoll env inner fut w).2.2.1 =
      .ready (.error .SubmissionQueueFull) ∧
    (submitFuturePoll env inner fut w).1.sq = inner.sq ∧
    (submitFuturePoll env inner fut w).1.cq = inner.cq ∧
    (submitFuturePoll env inner fut w).1.wakers = inner.wakers ∧
    (∀ e : Int, Error.SubmissionQueueFull ≠ Error.Io e) ∧
    (∀ e : Int, Error.SubmissionQueueFull ≠ Error.Setup e) ∧
    Error.SubmissionQueueFull ≠ Error.CompletionQueueEmpty ∧
    (∀ m : String, Error.SubmissionQueueFull ≠ Error.InvalidOperation m) ∧
    (∀ m : String, Error.SubmissionQueueFull ≠ Error.NotSupported m) := by
  have hg : io_uring_get_sqe inner.sq = none := (get_sqe_none_iff inner.sq hwf).mpr hfull
  rw [poll_of_step_err env inner fut w _ _ _ (submitStep_full env inner fut w hp hg)]
  refine ⟨rfl, rfl, rfl, rfl, ?_, ?_, ?_, ?_, ?_⟩ <;> intros <;> simp

/-- Witness for C5 on a concrete full ring (capacity 2, both slots
in flight). -/
theorem C5_witness :
    ((⟨false, some 5⟩ : FutState).pendingOp = true ∨
        (⟨true, none⟩ : FutState).pendingOp = true) ∧
      SQWF ⟨0, 2, 2⟩ ∧ space_left ⟨0, 2, 2⟩ = 0 ∧
      (submitFuturePoll ⟨0, .pending⟩
          ⟨⟨0, 2, 2⟩, [], 0, [], 1⟩ ⟨true, none⟩ 7).2.2.1 =
        .ready (.error .SubmissionQueueFull) :=
  ⟨Or.inr rfl, by decide, by decide,
    (C5_backpressure_immediate ⟨0, .pending⟩ ⟨⟨0, 2, 2⟩, [], 0, [], 1⟩
      ⟨true, none⟩ 7 rfl (by decide) (by decide)).1⟩

/-- C10: when the first activation fails — no free slot or a failed
kernel submit — the waiting-party table is unchanged (no waker record
registered under the allocated tag) yet the tag counter has already
advanced by one, so the failed submission still consumes a tag. -/
theorem C10_failed_submit_frame (env : PollEnv) (inner : MuxInner)
    (fut : FutState) (w : Nat) (hp : fut.pendingOp = true)
    (hfail : io_uring_get_sqe inner.sq = none ∨ env.submitRet < 0) :
    (submitFuturePoll env inner fut w).1.wakers = inner.wakers ∧
    (submitFuturePoll env inner fut w).1.next_user_data =
      (inner.next_user_data + 1) % 2 ^ 64 ∧
    ∃ e, (submitFuturePoll env inner fut w).2.2.1 = .ready (.error e) := by
  rcases hfail with hg | hr
  · rw [poll_of_step_err env inner fut w _ _ _ (submitStep_full env inner fut w hp hg)]
    exact ⟨rfl, rfl, _, rfl⟩
  · rcases hgs : io_uring_get_sqe inner.sq with _ | sq1
    · rw [poll_of_step_err env inner fut w _ _ _ (submitStep_full env inner fut w hp hgs)]
      exact ⟨rfl, rfl, _, rfl⟩
    · rw [poll_of_step_err env inner fut w _ _ _
        (submitStep_submit_err env inner fut w sq1 hp hgs hr)]
      exact ⟨rfl, rfl, _, rfl⟩

/-- Witness for C10: a failed kernel submit (return code -12) on a
ring with one free slot consumes tag 1 and registers no waker. -/
theorem C10_witness :
    ((⟨true, none⟩ : FutState).pendingOp = true ∧
      (io_uring_get_sqe (⟨0, 0, 2⟩ : SQState) = none ∨ (-12 : Int) < 0)) ∧
    ((submitFuturePoll ⟨-12, .pending⟩
        ⟨⟨0, 0, 2⟩, [], 0, [], 1⟩ ⟨true, none⟩ 7).1.wakers = [] ∧
      (submitFuturePoll ⟨-12, .pending⟩
        ⟨⟨0, 0, 2⟩, [], 0, [], 1⟩ ⟨true, none⟩ 7).1.next_user_data = 2) :=
  ⟨⟨rfl, Or.inr (by decide)⟩,
    by
      have h := C10_failed_submit_frame ⟨-12, .pending⟩
        ⟨⟨0, 0, 2⟩, [], 0, [], 1⟩ ⟨true, none⟩ 7 rfl (Or.inr (by decide))
      exact ⟨h.1, by rw [h.2.1]; decide⟩⟩

theorem dnd_resolve (env : PollEnv) (inner1 : MuxInner) (fut1 : FutState)
    (w : Nat) (w1 : List (Nat × Nat)) (cq1 : List CqeRec) (s1 : Nat)
    (tr : List Ev) (r : Int)
    (hdl : drainLoop (fut1.user_data.getD 0) inner1.wakers inner1.cq
      inner1.seen [] = (w1, cq1, s1, tr, some r)) :
    drainAndDecide env inner1 fut1 w =
      ({ inner1 with wakers := w1, cq := cq1, seen := s1 }, fut1,
        .ready (.ok r), tr ++ [Ev.decided]) := by
  simp [drainAndDecide, hdl]

theorem dnd_none_readyOk (env : PollEnv) (inner1 : MuxInner) (fut1 : FutState)
    (w : Nat) (w1 : List (Nat × Nat)) (cq1 : List CqeRec) (s1 : Nat)
    (tr : List Ev) (henv : env.readReady = .readyOk)
    (hdl : drainLoop (fut1.user_data.getD 0) inner1.wakers inner1.cq
      inner1.seen [] = (w1, cq1, s1, tr, none)) :
    drainAndDecide env inner1 fut1 w =
      ({ inner1 with
          wakers := winsert (fut1.user_data.getD 0) w w1
          cq := cq1
          seen := s1 }, fut1, .pending, tr ++ [Ev.decided]) := by
  simp [drainAndDecide, hdl, henv]

theorem dnd_none_readyErr (env : PollEnv) (inner1 : MuxInner) (fut1 : FutState)
    (w : Nat) (w1 : List (Nat × Nat)) (cq1 : List CqeRec) (s1 : Nat)
    (tr : List Ev) (e : Int) (henv : env.readReady = .readyErr e)
    (hdl : drainLoop (fut1.user_data.getD 0) inner1.wakers inner1.cq
      inner1.seen [] = (w1, cq1, s1, tr, none)) :
    drainAndDecide env inner1 fut1 w =
      ({ inner1 with wakers := w1, cq := cq1, seen := s1 }, fut1,
        .ready (.error (.Io e)), tr ++ [Ev.decided]) := by
  simp [drainAndDecide, hdl, henv]

theorem dnd_none_pending (env : PollEnv) (inner1 : MuxInner) (fut1 : FutState)
    (w : Nat) (w1 : List (Nat × Nat)) (cq1 : List CqeRec) (s1 : Nat)
    (tr : List Ev) (henv : env.readReady = .pending)
    (hdl : drainLoop (fut1.user_data.getD 0) inner1.wakers inner1.cq
      inner1.seen [] = (w1, cq1, s1, tr, none)) :
    drainAndDecide env inner1 fut1 w =
      ({ inner1 with
          wakers := winsert (fut1.user_data.getD 0) w w1
          cq := cq1
          seen := s1 }, fut1, .pending, tr ++ [Ev.decided]) := by
  simp [drainAndDecide, hdl, henv]

theorem poll_after_submit (env : PollEnv) (inner : MuxInner) (fut : FutState)
    (w : Nat) (hp : fut.pendingOp = false) :
    submitFuturePoll env inner fut w = drainAndDecide env inner fut w :=
  poll_of_step_ok env inner fut w inner fut
    (submitStep_not_pending env inner fut w hp)

/-- C6: when the drain pass of a suspended activation reaches the
completion carrying this operation's own tag, poll resolves with
Ok of that completion's raw result code (Cqe::result), even when it
is negative: a kernel-reported operation failure is delivered as the
result value, never through the multiplexer's error channel. -/
theorem C6_negative_result_delivered_ok (env : PollEnv) (inner : MuxInner)
    (fut : FutState) (w : Nat) (ud : Nat) (pre : List CqeRec) (c : CqeRec)
    (rest : List CqeRec) (hp : fut.pendingOp = false)
    (hud : fut.user_data = some ud) (hcq : inner.cq = pre ++ c :: rest)
    (hc : c.user_data = ud) (hpre : ∀ c1 ∈ pre, c1.user_data ≠ ud) :
    (submitFuturePoll env inner fut w).2.2.1 =
      .ready (.ok (cqeResult c)) := by
  rw [poll_after_submit env inner fut w hp]
  have hud0 : fut.user_data.getD 0 = ud := by rw [hud]; rfl
  rcases hdl : drainLoop ud inner.wakers inner.cq inner.seen [] with
    ⟨w1, cq1, s1, tr, r⟩
  have hres := drainLoop_resolve ud pre c rest inner.wakers inner.seen [] hpre hc
  rw [← hcq] at hres
  rw [hdl] at hres
  simp only at hres
  have hr : r = some c.res := hres.1
  subst hr
  rw [dnd_resolve env inner fut w w1 cq1 s1 tr c.res (by rw [hud0]; exact hdl)]
  rfl

/-- Witness for C6: a completion with negative result code -5 on the
awaited tag 3, behind one foreign completion, resolves as Ok(-5). -/
theorem C6_witness :
    ((⟨false, some 3⟩ : FutState).pendingOp = false ∧
      (⟨false, some 3⟩ : FutState).user_data = some 3 ∧
      ([⟨9, 1, 0⟩, ⟨3, -5, 0⟩] : List CqeRec) = [⟨9, 1, 0⟩] ++ ⟨3, -5, 0⟩ :: [] ∧
      (⟨3, -5, 0⟩ : CqeRec).user_data = 3 ∧
      ∀ c1 ∈ ([⟨9, 1, 0⟩] : List CqeRec), c1.user_data ≠ 3) ∧
    (submitFuturePoll ⟨0, .pending⟩
        ⟨⟨0, 2, 8⟩, [⟨9, 1, 0⟩, ⟨3, -5, 0⟩], 0, [(3, 55)], 4⟩
        ⟨false, some 3⟩ 55).2.2.1 = .ready (.ok (-5)) :=
  ⟨⟨rfl, rfl, rfl, rfl, by decide⟩,
    C6_negative_result_delivered_ok ⟨0, .pending⟩
      ⟨⟨0, 2, 8⟩, [⟨9, 1, 0⟩, ⟨3, -5, 0⟩], 0, [(3, 55)], 4⟩
      ⟨false, some 3⟩ 55 3 [⟨9, 1, 0⟩] ⟨3, -5, 0⟩ [] rfl rfl rfl rfl
      (by decide)⟩

theorem poll_seen_trace (env : PollEnv) (inner : MuxInner) (fut : FutState)
    (w : Nat) :
    ((submitFuturePoll env inner fut w).2.2.2 = [Ev.decided] ∧
      (submitFuturePoll env inner fut w).1.seen = inner.seen) ∨
    ∃ (ud : Nat) (wak w1 : List (Nat × Nat)) (cq1 : List CqeRec) (s1 : Nat)
      (tr : List Ev) (r : Option Int),
      drainLoop ud wak inner.cq inner.seen [] = (w1, cq1, s1, tr, r) ∧
      (submitFuturePoll env inner fut w).2.2.2 = tr ++ [Ev.decided] ∧
      (submitFuturePoll env inner fut w).1.seen = s1 := by
  rcases hp : fut.pendingOp with _ | _
  · rw [poll_after_submit env inner fut w hp]
    rcases hdl : drainLoop (fut.user_data.getD 0) inner.wakers inner.cq
      inner.seen [] with ⟨w1, cq1, s1, tr, r⟩
    rcases r with _ | v
    · rcases henv : env.readReady with _ | e | _
      · rw [dnd_none_readyOk env inner fut w w1 cq1 s1 tr henv hdl]
        exact Or.inr ⟨_, _, _, _, _, _, _, hdl, rfl, rfl⟩
      · rw [dnd_none_readyErr env inner fut w w1 cq1 s1 tr e henv hdl]
        exact Or.inr ⟨_, _, _, _, _, _, _, hdl, rfl, rfl⟩
      · rw [dnd_none_pending env inner fut w w1 cq1 s1 tr henv hdl]
        exact Or.inr ⟨_, _, _, _, _, _, _, hdl, rfl, rfl⟩
    · rw [dnd_resolve env inner fut w w1 cq1 s1 tr v hdl]
      exact Or.inr ⟨_, _, _, _, _, _, _, hdl, rfl, rfl⟩
  · rcases hg : io_uring_get_sqe inner.sq with _ | sq1
    · rw [poll_of_step_err env inner fut w _ _ _ (submitStep_full env inner fut w hp hg)]
      exact Or.inl ⟨rfl, rfl⟩
    · by_cases hr : env.submitRet < 0
      · rw [poll_of_step_err env inner fut w _ _ _
          (submitStep_submit_err env inner fut w sq1 hp hg hr)]
        exact Or.inl ⟨rfl, rfl⟩
      · rw [poll_of_step_ok env inner fut w _ _
          (submitStep_ok env inner fut w sq1 hp hg (by omega))]
        rcases hdl : drainLoop ((⟨false, some inner.next_user_data⟩ :
            FutState).user_data.getD 0)
          (winsert inner.next_user_data w inner.wakers) inner.cq inner.seen []
          with ⟨w1, cq1, s1, tr, r⟩
        rcases r with _ | v
        · rcases henv : env.readReady with _ | e | _
          · rw [dnd_none_readyOk env _ _ w w1 cq1 s1 tr henv hdl]
            exact Or.inr ⟨_, _, _, _, _, _, _, hdl, rfl, rfl⟩
          · rw [dnd_none_readyErr env _ _ w w1 cq1 s1 tr e henv hdl]
            exact Or.inr ⟨_, _, _, _, _, _, _, hdl, rfl, rfl⟩
          · rw [dnd_none_pending env _ _ w w1 cq1 s1 tr henv hdl]
            exact Or.inr ⟨_, _, _, _, _, _, _, hdl, rfl, rfl⟩
        · rw [dnd_resolve env _ _ w w1 cq1 s1 tr v hdl]
          exact Or.inr ⟨_, _, _, _, _, _, _, hdl, rfl, rfl⟩

/-- C4: every completion handle yielded during an activation of the
multiplexer is retired exactly once — for every tag, the observed
events and the retired events of the poll trace agree in count on
every code path (resolution, suspension, reactor error, early error),
and the retired total is accounted in the seen counter; and on the
async-std path, consuming a completion through wait_cqe retires
exactly that one completion. -/
theorem C4_retire_exactly_once :
    (∀ (env : PollEnv) (inner : MuxInner) (fut : FutState) (w : Nat) (t : Nat),
      ((submitFuturePoll env inner fut w).2.2.2).countP (evObsTag t) =
        ((submitFuturePoll env inner fut w).2.2.2).countP (evRetTag t)) ∧
    (∀ (env : PollEnv) (inner : MuxInner) (fut : FutState) (w : Nat),
      (submitFuturePoll env inner fut w).1.seen =
        inner.seen + ((submitFuturePoll env inner fut w).2.2.2).countP evIsObs) ∧
    (∀ (sr wr : Int) (r : StdRing) (sq1 : SQState),
      io_uring_get_sqe r.sq = some sq1 → 0 ≤ sr → 0 ≤ wr →
      ∀ c rest, r.cq = c :: rest →
      (asyncStdSubmitOp sr wr r).1.seen = r.seen + 1 ∧
      (asyncStdSubmitOp sr wr r).1.cq = rest) := by
  refine ⟨?_, ?_, ?_⟩
  · intro env inner fut w t
    rcases poll_seen_trace env inner fut w with ⟨htr, _⟩ |
      ⟨ud, wak, w1, cq1, s1, tr, r, hdl, htr, hseen⟩
    · rw [htr]
      simp [List.countP_cons, evObsTag, evRetTag]
    · obtain ⟨ntr, hntr, hdec, hs, hcnt⟩ :=
        drainLoop_trace ud inner.cq wak inner.seen []
      rw [hdl] at hntr
      simp only [List.nil_append] at hntr
      rw [htr, hntr]
      simp only [List.countP_append, hcnt t]
      simp [List.countP_cons, evObsTag, evRetTag]
  · intro env inner fut w
    rcases poll_seen_trace env inner fut w with ⟨htr, hseen⟩ |
      ⟨ud, wak, w1, cq1, s1, tr, r, hdl, htr, hseen⟩
    · rw [htr, hseen]
      simp [List.countP_cons, evIsObs]
    · obtain ⟨ntr, hntr, hdec, hs, hcnt⟩ :=
        drainLoop_trace ud inner.cq wak inner.seen []
      rw [hdl] at hntr hs
      simp only [List.nil_append] at hntr
      simp only at hs
      rw [htr, hntr, hseen, hs]
      simp [List.countP_append, List.countP_cons, evIsObs]
  · intro sr wr r sq1 hg hsr hwr c rest hcq
    have hnsr : ¬ sr < 0 := by omega
    have hnwr : ¬ wr < 0 := by omega
    simp [asyncStdSubmitOp, hg, ring_submit, hnsr, wait_cqe, hnwr, hcq]

/-- Witness for C4's async-std conjunct at a concrete ring. -/
theorem C4_witness :
    (io_uring_get_sqe (⟨0, 0, 4⟩ : SQState) = some ⟨0, 1, 4⟩ ∧
      (0 : Int) ≤ 0 ∧ (0 : Int) ≤ 0 ∧
      ([⟨1, 0, 0⟩] : List CqeRec) = ⟨1, 0, 0⟩ :: []) ∧
    ((asyncStdSubmitOp 0 0 ⟨⟨0, 0, 4⟩, [⟨1, 0, 0⟩], 5⟩).1.seen = 6 ∧
      (asyncStdSubmitOp 0 0 ⟨⟨0, 0, 4⟩, [⟨1, 0, 0⟩], 5⟩).1.cq = []) :=
  ⟨⟨by decide, by decide, by decide, rfl⟩,
    C4_retire_exactly_once.2.2 0 0 ⟨⟨0, 0, 4⟩, [⟨1, 0, 0⟩], 5⟩ ⟨0, 1, 4⟩
      (by decide) (by decide) (by decide) ⟨1, 0, 0⟩ [] rfl⟩

theorem wfind_winsert_ne (t u w : Nat) (l : List (Nat × Nat)) (h : t ≠ u) :
    wfind t (winsert u w l) = wfind t l := by
  show wfind t ((u, w) :: werase u l) = wfind t l
  simp only [wfind]
  rw [if_neg (by omega)]
  exact wfind_werase_ne u t l h

theorem drainLoop_no_woke (ud t v : Nat) :
    ∀ (cq : List CqeRec) (wakers : List (Nat × Nat)) (seen : Nat) (tr0 : List Ev),
    Ev.woke v t ∈ (drainLoop ud wakers cq seen tr0).2.2.2.1 →
    Ev.woke v t ∈ tr0 ∨ wfind t wakers ≠ none := by
  intro cq
  induction cq with
  | nil =>
    intro wakers seen tr0 h
    rw [drainLoop_nil] at h
    exact Or.inl h
  | cons c rest ih =>
    intro wakers seen tr0 h
    by_cases hown : c.user_data = ud
    · rw [drainLoop_cons_own ud wakers c rest seen tr0 hown] at h
      simp only [List.mem_append, List.mem_cons, List.not_mem_nil] at h
      rcases h with h | h | h | h
      · exact Or.inl h
      · exact absurd h (by simp)
      · exact absurd h (by simp)
      · exact absurd h (by simp)
    · rcases hfc : wfind c.user_data wakers with _ | v1
      · rw [drainLoop_cons_miss ud wakers c rest seen tr0 hown hfc] at h
        rcases ih _ _ _ h with h1 | h1
        · simp only [List.mem_append, List.mem_cons, List.not_mem_nil] at h1
          rcases h1 with h2 | h2 | h2 | h2
          · exact Or.inl h2
          · exact absurd h2 (by simp)
          · exact absurd h2 (by simp)
          · exact absurd h2 (by simp)
        · by_cases hct : t = c.user_data
          · rw [hct] at h1
            rw [wfind_werase_self c.user_data wakers] at h1
            exact absurd rfl h1
          · rw [wfind_werase_ne _ _ wakers hct] at h1
            exact Or.inr h1
      · rw [drainLoop_cons_hit ud wakers c rest seen tr0 v1 hown hfc] at h
        rcases ih _ _ _ h with h1 | h1
        · simp only [List.mem_append, List.mem_cons, List.not_mem_nil] at h1
          rcases h1 with h2 | h2 | h2 | h2 | h2
          · exact Or.inl h2
          · exact absurd h2 (by simp)
          · exact absurd h2 (by simp)
          · simp only [Ev.woke.injEq] at h2
            refine Or.inr ?_
            rw [h2.2, hfc]
            simp
          · exact absurd h2 (by simp)
        · by_cases hct : t = c.user_data
          · refine Or.inr ?_
            rw [hct, hfc]
            simp
          · rw [wfind_werase_ne _ _ wakers hct] at h1
            exact Or.inr h1

theorem poll_wakers_shape (env : PollEnv) (inner : MuxInner) (fut : FutState)
    (w : Nat) (ud : Nat) (hp : fut.pendingOp = false)
    (hud : fut.user_data = some ud) :
    ∃ (w1 : List (Nat × Nat)) (cq1 : List CqeRec) (s1 : Nat) (tr : List Ev)
      (r : Option Int),
      drainLoop ud inner.wakers inner.cq inner.seen [] = (w1, cq1, s1, tr, r) ∧
      (submitFuturePoll env inner fut w).2.2.2 = tr ++ [Ev.decided] ∧
      ((submitFuturePoll env inner fut w).1.wakers = w1 ∨
        (submitFuturePoll env inner fut w).1.wakers = winsert ud w w1) := by
  rw [poll_after_submit env inner fut w hp]
  have hud0 : fut.user_data.getD 0 = ud := by rw [hud]; rfl
  rcases hdl : drainLoop ud inner.wakers inner.cq inner.seen [] with
    ⟨w1, cq1, s1, tr, r⟩
  have hdl0 : drainLoop (fut.user_data.getD 0) inner.wakers inner.cq
      inner.seen [] = (w1, cq1, s1, tr, r) := by rw [hud0]; exact hdl
  rcases r with _ | v
  · rcases henv : env.readReady with _ | e | _
    · rw [dnd_none_readyOk env inner fut w w1 cq1 s1 tr henv hdl0]
      exact ⟨w1, cq1, s1, tr, none, rfl, rfl, Or.inr (by rw [hud0])⟩
    · rw [dnd_none_readyErr env inner fut w w1 cq1 s1 tr e henv hdl0]
      exact ⟨w1, cq1, s1, tr, none, rfl, rfl, Or.inl rfl⟩
    · rw [dnd_none_pending env inner fut w w1 cq1 s1 tr henv hdl0]
      exact ⟨w1, cq1, s1, tr, none, rfl, rfl, Or.inr (by rw [hud0])⟩
  · rw [dnd_resolve env inner fut w w1 cq1 s1 tr v hdl0]
    exact ⟨w1, cq1, s1, tr, some v, rfl, rfl, Or.inl rfl⟩

/-- C3: in every activation of a suspended (already submitted)
operation, the trace ends with exactly one decision event, and every
drained completion whose tag matches a different registered
waiting-party record has that record's waker invoked and the record
removed from the table strictly before the activation's own
suspend-or-resolve decision. -/
theorem C3_forward_before_decide (env : PollEnv) (inner : MuxInner)
    (fut : FutState) (w : Nat) (ud : Nat) (hp : fut.pendingOp = false)
    (hud : fut.user_data = some ud) :
    ∃ t : List Ev,
      (submitFuturePoll env inner fut w).2.2.2 = t ++ [Ev.decided] ∧
      Ev.decided ∉ t ∧
      ∀ (tag v : Nat) (r : Int), tag ≠ ud →
        wfind tag inner.wakers = some v →
        Ev.observed tag r ∈ t →
        Ev.woke v tag ∈ t ∧
        wfind tag (submitFuturePoll env inner fut w).1.wakers = none := by
  obtain ⟨w1, cq1, s1, tr, r, hdl, htr, hwk⟩ :=
    poll_wakers_shape env inner fut w ud hp hud
  obtain ⟨ntr, hntr, hdec, _, _⟩ :=
    drainLoop_trace ud inner.cq inner.wakers inner.seen []
  rw [hdl] at hntr
  simp only [List.nil_append] at hntr
  refine ⟨tr, htr, by rw [hntr]; exact hdec, ?_⟩
  intro tag v r1 htag hf hobs
  have hobs1 : Ev.observed tag r1 ∈
      (drainLoop ud inner.wakers inner.cq inner.seen []).2.2.2.1 := by
    rw [hdl]; exact hobs
  have hwoke := drainLoop_woke ud tag v inner.cq inner.wakers inner.seen []
    r1 htag hf hobs1 (by simp)
  rw [hdl] at hwoke
  simp only at hwoke
  have hrem := drainLoop_removed ud tag inner.cq inner.wakers inner.seen []
    r1 htag hobs1 (by simp)
  rw [hdl] at hrem
  simp only at hrem
  refine ⟨hwoke, ?_⟩
  rcases hwk with hwk | hwk
  · rw [hwk]; exact hrem
  · rw [hwk, wfind_winsert_ne tag ud w w1 htag]
    exact hrem

/-- Witness for C3: future with tag 1 drains a foreign completion for
registered tag 2 before resolving its own. -/
theorem C3_witness :
    ((⟨false, some 1⟩ : FutState).pendingOp = false ∧
      (⟨false, some 1⟩ : FutState).user_data = some 1) ∧
    ∃ t : List Ev,
      (submitFuturePoll ⟨0, .pending⟩
        ⟨⟨0, 2, 8⟩, [⟨2, 0, 0⟩, ⟨1, 0, 0⟩], 0, [(1, 101), (2, 102)], 3⟩
        ⟨false, some 1⟩ 101).2.2.2 = t ++ [Ev.decided] ∧
      Ev.decided ∉ t ∧
      ∀ (tag v : Nat) (r : Int), tag ≠ 1 →
        wfind tag [(1, 101), (2, 102)] = some v →
        Ev.observed tag r ∈ t →
        Ev.woke v tag ∈ t ∧
        wfind tag (submitFuturePoll ⟨0, .pending⟩
          ⟨⟨0, 2, 8⟩, [⟨2, 0, 0⟩, ⟨1, 0, 0⟩], 0, [(1, 101), (2, 102)], 3⟩
          ⟨false, some 1⟩ 101).1.wakers = none :=
  ⟨⟨rfl, rfl⟩,
    C3_forward_before_decide ⟨0, .pending⟩
      ⟨⟨0, 2, 8⟩, [⟨2, 0, 0⟩, ⟨1, 0, 0⟩], 0, [(1, 101), (2, 102)], 3⟩
      ⟨false, some 1⟩ 101 1 rfl rfl⟩

theorem drainLoop_obs_ret (ud : Nat) (cq : List CqeRec)
    (wakers : List (Nat × Nat)) (seen : Nat) (t : Nat) (r : Int)
    (h : Ev.observed t r ∈ (drainLoop ud wakers cq seen []).2.2.2.1) :
    Ev.retired t ∈ (drainLoop ud wakers cq seen []).2.2.2.1 := by
  obtain ⟨ntr, hntr, _, _, hcnt⟩ := drainLoop_trace ud cq wakers seen []
  rw [hntr] at h ⊢
  simp only [List.nil_append] at h ⊢
  have hobs : 0 < ntr.countP (evObsTag t) := by
    rw [List.countP_pos_iff]
    exact ⟨Ev.observed t r, h, by simp [evObsTag]⟩
  rw [hcnt t] at hobs
  rw [List.countP_pos_iff] at hobs
  obtain ⟨e, hmem, he⟩ := hobs
  cases e with
  | observed u s => exact absurd he (by simp [evRetTag])
  | retired u =>
    have : u = t := by simpa [evRetTag] using he
    rw [← this]
    exact hmem
  | woke a b => exact absurd he (by simp [evRetTag])
  | decided => exact absurd he (by simp [evRetTag])

theorem drainLoop_some_mem (ud : Nat) :
    ∀ (cq : List CqeRec) (wakers : List (Nat × Nat)) (seen : Nat)
    (tr0 : List Ev) (v : Int),
    (drainLoop ud wakers cq seen tr0).2.2.2.2 = some v →
    ∃ c ∈ cq, c.user_data = ud := by
  intro cq
  induction cq with
  | nil =>
    intro wakers seen tr0 v h
    rw [drainLoop_nil] at h
    exact absurd h (by simp)
  | cons c rest ih =>
    intro wakers seen tr0 v h
    by_cases hown : c.user_data = ud
    · exact ⟨c, by simp, hown⟩
    · rcases hfc : wfind c.user_data wakers with _ | v1
      · rw [drainLoop_cons_miss ud wakers c rest seen tr0 hown hfc] at h
        obtain ⟨c1, hm, hu⟩ := ih _ _ _ _ h
        exact ⟨c1, by simp [hm], hu⟩
      · rw [drainLoop_cons_hit ud wakers c rest seen tr0 v1 hown hfc] at h
        obtain ⟨c1, hm, hu⟩ := ih _ _ _ _ h
        exact ⟨c1, by simp [hm], hu⟩

/-- C7: during a suspended activation's drain, every observed
completion is retired, and it is either this operation's own
completion, or its registered foreign waiter is woken, or — the one
silent-drop case — its tag has no record in the table and no waker is
invoked for it; the reactor's readiness error and the kernel's submit
error are propagated to the caller unchanged. -/
theorem C7_silent_drop_only_unmatched :
    (∀ (env : PollEnv) (inner : MuxInner) (fut : FutState) (w ud : Nat)
      (tag : Nat) (r : Int), fut.pendingOp = false →
      fut.user_data = some ud →
      Ev.observed tag r ∈ (submitFuturePoll env inner fut w).2.2.2 →
      Ev.retired tag ∈ (submitFuturePoll env inner fut w).2.2.2 ∧
      (tag = ud ∨
        (∃ v, Ev.woke v tag ∈ (submitFuturePoll env inner fut w).2.2.2) ∨
        (wfind tag inner.wakers = none ∧
          ∀ v, Ev.woke v tag ∉ (submitFuturePoll env inner fut w).2.2.2))) ∧
    (∀ (env : PollEnv) (inner : MuxInner) (fut : FutState) (w : Nat)
      (e : Int), fut.pendingOp = false → env.readReady = .readyErr e →
      (∀ c ∈ inner.cq, c.user_data ≠ fut.user_data.getD 0) →
      (submitFuturePoll env inner fut w).2.2.1 = .ready (.error (.Io e))) ∧
    (∀ (env : PollEnv) (inner : MuxInner) (fut : FutState) (w : Nat)
      (sq1 : SQState), fut.pendingOp = true →
      io_uring_get_sqe inner.sq = some sq1 → env.submitRet < 0 →
      (submitFuturePoll env inner fut w).2.2.1 =
        .ready (.error (.Io (-env.submitRet)))) := by
  refine ⟨?_, ?_, ?_⟩
  · intro env inner fut w ud tag r hp hud hobs
    obtain ⟨w1, cq1, s1, tr, rr, hdl, htr, hwk⟩ :=
      poll_wakers_shape env inner fut w ud hp hud
    rw [htr] at hobs
    have hobs1 : Ev.observed tag r ∈ tr := by
      rcases List.mem_append.mp hobs with h1 | h1
      · exact h1
      · simp at h1
    have hobs2 : Ev.observed tag r ∈
        (drainLoop ud inner.wakers inner.cq inner.seen []).2.2.2.1 := by
      rw [hdl]
      exact hobs1
    constructor
    · have hret := drainLoop_obs_ret ud inner.cq inner.wakers inner.seen tag r hobs2
      rw [hdl] at hret
      simp only at hret
      rw [htr]
      exact List.mem_append_left _ hret
    · rcases drainLoop_trichotomy ud inner.cq inner.wakers inner.seen []
        tag r hobs2 (by simp) with h1 | h1 | h1
      · exact Or.inl h1
      · obtain ⟨v, hv⟩ := h1
        rw [hdl] at hv
        simp only at hv
        exact Or.inr (Or.inl ⟨v, by rw [htr]; exact List.mem_append_left _ hv⟩)
      · refine Or.inr (Or.inr ⟨h1, ?_⟩)
        intro v hv
        rw [htr] at hv
        have hv1 : Ev.woke v tag ∈ tr := by
          rcases List.mem_append.mp hv with h2 | h2
          · exact h2
          · simp at h2
        have hv2 : Ev.woke v tag ∈
            (drainLoop ud inner.wakers inner.cq inner.seen []).2.2.2.1 := by
          rw [hdl]
          exact hv1
        rcases drainLoop_no_woke ud tag v inner.cq inner.wakers inner.seen []
          hv2 with h2 | h2
        · exact absurd h2 (by simp)
        · exact h2 h1
  · intro env inner fut w e hp henv hnone
    rw [poll_after_submit env inner fut w hp]
    rcases hdl : drainLoop (fut.user_data.getD 0) inner.wakers inner.cq
      inner.seen [] with ⟨w1, cq1, s1, tr, r⟩
    rcases r with _ | v
    · rw [dnd_none_readyErr env inner fut w w1 cq1 s1 tr e henv hdl]
    · exfalso
      obtain ⟨c, hcmem, hcud⟩ := drainLoop_some_mem (fut.user_data.getD 0)
        inner.cq inner.wakers inner.seen [] v (by rw [hdl])
      exact hnone c hcmem hcud
  · intro env inner fut w sq1 hp hg hr
    rw [poll_of_step_err env inner fut w _ _ _
      (submitStep_submit_err env inner fut w sq1 hp hg hr)]

/-- Witness for C7: an unmatched foreign completion (tag 9) is retired
and dropped with no waker invoked; a readiness error and a submit
error propagate unchanged. -/
theorem C7_witness :
    (((⟨false, some 1⟩ : FutState).pendingOp = false ∧
        (⟨false, some 1⟩ : FutState).user_data = some 1 ∧
        Ev.observed 9 4 ∈ (submitFuturePoll ⟨0, .pending⟩
          ⟨⟨0, 1, 8⟩, [⟨9, 4, 0⟩, ⟨1, 0, 0⟩], 0, [(1, 101)], 2⟩
          ⟨false, some 1⟩ 101).2.2.2) ∧
      (Ev.retired 9 ∈ (submitFuturePoll ⟨0, .pending⟩
          ⟨⟨0, 1, 8⟩, [⟨9, 4, 0⟩, ⟨1, 0, 0⟩], 0, [(1, 101)], 2⟩
          ⟨false, some 1⟩ 101).2.2.2 ∧
        ((9 : Nat) = 1 ∨
          (∃ v, Ev.woke v 9 ∈ (submitFuturePoll ⟨0, .pending⟩
            ⟨⟨0, 1, 8⟩, [⟨9, 4, 0⟩, ⟨1, 0, 0⟩], 0, [(1, 101)], 2⟩
            ⟨false, some 1⟩ 101).2.2.2) ∨
          (wfind 9 [(1, 101)] = none ∧
            ∀ v, Ev.woke v 9 ∉ (submitFuturePoll ⟨0, .pending⟩
              ⟨⟨0, 1, 8⟩, [⟨9, 4, 0⟩, ⟨1, 0, 0⟩], 0, [(1, 101)], 2⟩
              ⟨false, some 1⟩ 101).2.2.2)))) ∧
    (submitFuturePoll ⟨0, .readyErr 13⟩
        ⟨⟨0, 1, 8⟩, [], 0, [(1, 101)], 2⟩ ⟨false, some 1⟩ 101).2.2.1 =
      .ready (.error (.Io 13)) ∧
    (submitFuturePoll ⟨-5, .pending⟩
        ⟨⟨0, 0, 8⟩, [], 0, [], 1⟩ ⟨true, none⟩ 101).2.2.1 =
      .ready (.error (.Io 5)) :=
  ⟨⟨⟨rfl, rfl, by decide⟩,
      C7_silent_drop_only_unmatched.1 ⟨0, .pending⟩
        ⟨⟨0, 1, 8⟩, [⟨9, 4, 0⟩, ⟨1, 0, 0⟩], 0, [(1, 101)], 2⟩
        ⟨false, some 1⟩ 101 1 9 4 rfl rfl (by decide)⟩,
    C7_silent_drop_only_unmatched.2.1 ⟨0, .readyErr 13⟩
      ⟨⟨0, 1, 8⟩, [], 0, [(1, 101)], 2⟩ ⟨false, some 1⟩ 101 13 rfl rfl
      (by decide),
    by
      have h := C7_silent_drop_only_unmatched.2.2 ⟨-5, .pending⟩
        ⟨⟨0, 0, 8⟩, [], 0, [], 1⟩ ⟨true, none⟩ 101 ⟨0, 1, 8⟩ rfl (by decide)
        (by decide)
      simpa using h⟩

/-! ## The lost-completion scenario (claim C1) -/

theorem poll_empty_pending (env : PollEnv) (inner : MuxInner) (fut : FutState)
    (w : Nat) (hcq : inner.cq = []) (hp : fut.pendingOp = false)
    (henv : env.readReady = .readyOk ∨ env.readReady = .pending) :
    (submitFuturePoll env inner fut w).2.2.1 = .pending ∧
    (submitFuturePoll env inner fut w).1.cq = [] ∧
    (submitFuturePoll env inner fut w).2.1 = fut := by
  rw [poll_after_submit env inner fut w hp]
  have hdl : drainLoop (fut.user_data.getD 0) inner.wakers inner.cq
      inner.seen [] = (inner.wakers, [], inner.seen, [], none) := by
    rw [hcq, drainLoop_nil]
  rcases henv with henv | henv
  · rw [dnd_none_readyOk env inner fut w inner.wakers [] inner.seen [] henv hdl]
    exact ⟨rfl, rfl, rfl⟩
  · rw [dnd_none_pending env inner fut w inner.wakers [] inner.seen [] henv hdl]
    exact ⟨rfl, rfl, rfl⟩

/-- The multiplexer state of the failing run: two operations are in
flight with tags 1 and 2, both wakers registered, and the kernel has
delivered both completions, tag 2's first. -/
def lostInner : MuxInner :=
  ⟨⟨0, 2, 8⟩, [⟨2, 0, 0⟩, ⟨1, 0, 0⟩], 0, [(1, 101), (2, 102)], 3⟩

/-- Future 1 (tag 1), already submitted. -/
def lostFut1 : FutState := ⟨false, some 1⟩

/-- Future 2 (tag 2), already submitted. -/
def lostFut2 : FutState := ⟨false, some 2⟩

/-- An environment whose reactor reports no further readiness: the
kernel has already delivered every completion of this run. -/
def lostEnv : PollEnv := ⟨0, .pending⟩

/-- The multiplexer state after future 1's poll. -/
def lostAfter : MuxInner := (submitFuturePoll lostEnv lostInner lostFut1 101).1

/-- Repeated activations of future 2 against a fixed environment: the
state after n polls. -/
def pollStateN (env : PollEnv) (w : Nat) (inner : MuxInner) (fut : FutState) :
    Nat → MuxInner × FutState
  | 0 => (inner, fut)
  | n + 1 =>
    let p := pollStateN env w inner fut n
    let q := submitFuturePoll env p.1 p.2 w
    (q.1, q.2.1)

theorem lost_invariant (n : Nat) :
    (pollStateN lostEnv 102 lostAfter lostFut2 n).1.cq = [] ∧
    (pollStateN lostEnv 102 lostAfter lostFut2 n).2 = lostFut2 := by
  induction n with
  | zero => exact ⟨by decide, rfl⟩
  | succ n ih =>
    obtain ⟨hcq, hfut⟩ := ih
    have h := poll_empty_pending lostEnv
      (pollStateN lostEnv 102 lostAfter lostFut2 n).1
      (pollStateN lostEnv 102 lostAfter lostFut2 n).2 102 hcq
      (by rw [hfut]; rfl) (Or.inr rfl)
    exact ⟨h.2.1, by
      show (submitFuturePoll lostEnv _ _ 102).2.1 = lostFut2
      rw [h.2.2, hfut]⟩

/-- C1 (refuted by the code): with both completions delivered — tag
2's first — future 1's poll resolves, but along the way it peeks,
retires and discards future 2's completion, merely waking waker 102.
The completion buffer is then empty forever (the kernel never
redelivers a retired completion), so every subsequent activation of
future 2 returns Pending: its future never resolves even though its
completion arrived. -/
theorem C1_lost_completion :
    (submitFuturePoll lostEnv lostInner lostFut1 101).2.2.1 =
      .ready (.ok 0) ∧
    Ev.retired 2 ∈ (submitFuturePoll lostEnv lostInner lostFut1 101).2.2.2 ∧
    Ev.woke 102 2 ∈ (submitFuturePoll lostEnv lostInner lostFut1 101).2.2.2 ∧
    lostAfter.cq = [] ∧
    lostAfter.wakers = [] ∧
    (∀ n : Nat,
      (submitFuturePoll lostEnv
        (pollStateN lostEnv 102 lostAfter lostFut2 n).1
        (pollStateN lostEnv 102 lostAfter lostFut2 n).2 102).2.2.1 =
      .pending) := by
  refine ⟨by decide, by decide, by decide, by decide, by decide, ?_⟩
  intro n
  obtain ⟨hcq, hfut⟩ := lost_invariant n
  exact (poll_empty_pending lostEnv _ _ 102 hcq
    (by rw [hfut]; rfl) (Or.inr rfl)).1

/-! ## Tag allocation and table invariants (claim C2) -/

theorem dnd_effect (env : PollEnv) (inner1 : MuxInner) (fut1 : FutState)
    (w : Nat) :
    (drainAndDecide env inner1 fut1 w).1.next_user_data =
      inner1.next_user_data ∧
    (drainAndDecide env inner1 fut1 w).2.1 = fut1 ∧
    (∀ k, k ∈ wkeys (drainAndDecide env inner1 fut1 w).1.wakers →
      k ∈ wkeys inner1.wakers ∨ k = fut1.user_data.getD 0) ∧
    ((wkeys inner1.wakers).Nodup →
      (wkeys (drainAndDecide env inner1 fut1 w).1.wakers).Nodup) := by
  rcases hdl : drainLoop (fut1.user_data.getD 0) inner1.wakers inner1.cq
    inner1.seen [] with ⟨w1, cq1, s1, tr, r⟩
  obtain ⟨hsub, hnd⟩ := drainLoop_keys (fut1.user_data.getD 0) inner1.cq
    inner1.wakers inner1.seen []
  rw [hdl] at hsub hnd
  rcases r with _ | v
  · rcases henv : env.readReady with _ | e | _
    · rw [dnd_none_readyOk env inner1 fut1 w w1 cq1 s1 tr henv hdl]
      refine ⟨rfl, rfl, ?_, ?_⟩
      · intro k hk
        rcases wkeys_winsert_mem _ w k w1 hk with h1 | h1
        · exact Or.inr h1
        · exact Or.inl (hsub k h1)
      · intro h
        exact wkeys_winsert_nodup _ w w1 (hnd h)
    · rw [dnd_none_readyErr env inner1 fut1 w w1 cq1 s1 tr e henv hdl]
      exact ⟨rfl, rfl, fun k hk => Or.inl (hsub k hk), hnd⟩
    · rw [dnd_none_pending env inner1 fut1 w w1 cq1 s1 tr henv hdl]
      refine ⟨rfl, rfl, ?_, ?_⟩
      · intro k hk
        rcases wkeys_winsert_mem _ w k w1 hk with h1 | h1
        · exact Or.inr h1
        · exact Or.inl (hsub k h1)
      · intro h
        exact wkeys_winsert_nodup _ w w1 (hnd h)
  · rw [dnd_resolve env inner1 fut1 w w1 cq1 s1 tr v hdl]
    exact ⟨rfl, rfl, fun k hk => Or.inl (hsub k hk), hnd⟩

theorem poll_effect (env : PollEnv) (inner : MuxInner) (fut : FutState)
    (w : Nat) :
    (fut.pendingOp = true →
      (submitFuturePoll env inner fut w).1.next_user_data =
        (inner.next_user_data + 1) % 2 ^ 64 ∧
      (submitFuturePoll env inner fut w).2.1 =
        ⟨false, some inner.next_user_data⟩) ∧
    (fut.pendingOp = false →
      (submitFuturePoll env inner fut w).1.next_user_data =
        inner.next_user_data ∧
      (submitFuturePoll env inner fut w).2.1 = fut) ∧
    (∀ k, k ∈ wkeys (submitFuturePoll env inner fut w).1.wakers →
      k ∈ wkeys inner.wakers ∨
      (fut.pendingOp = true ∧ k = inner.next_user_data) ∨
      (fut.pendingOp = false ∧ k = fut.user_data.getD 0)) ∧
    ((wkeys inner.wakers).Nodup →
      (wkeys (submitFuturePoll env inner fut w).1.wakers).Nodup) := by
  rcases hp : fut.pendingOp with _ | _
  · rw [poll_after_submit env inner fut w hp]
    obtain ⟨h1, h2, h3, h4⟩ := dnd_effect env inner fut w
    refine ⟨fun hc => absurd hc (by simp), fun _ => ⟨h1, h2⟩, ?_, h4⟩
    intro k hk
    rcases h3 k hk with h5 | h5
    · exact Or.inl h5
    · exact Or.inr (Or.inr ⟨rfl, h5⟩)
  · rcases hg : io_uring_get_sqe inner.sq with _ | sq1
    · rw [poll_of_step_err env inner fut w _ _ _
        (submitStep_full env inner fut w hp hg)]
      refine ⟨fun _ => ⟨rfl, rfl⟩, fun hc => absurd hc (by simp),
        fun k hk => Or.inl hk, fun h => h⟩
    · by_cases hr : env.submitRet < 0
      · rw [poll_of_step_err env inner fut w _ _ _
          (submitStep_submit_err env inner fut w sq1 hp hg hr)]
        refine ⟨fun _ => ⟨rfl, rfl⟩, fun hc => absurd hc (by simp),
          fun k hk => Or.inl hk, fun h => h⟩
      · rw [poll_of_step_ok env inner fut w _ _
          (submitStep_ok env inner fut w sq1 hp hg (by omega))]
        obtain ⟨h1, h2, h3, h4⟩ := dnd_effect env
          { inner with
            next_user_data := ((inner.next_user_data + 1) % 2 ^ 64)
            sq := sq1
            wakers := winsert inner.next_user_data w inner.wakers }
          ⟨false, some inner.next_user_data⟩ w
        refine ⟨fun _ => ⟨h1, h2⟩, fun hc => absurd hc (by simp), ?_, ?_⟩
        · intro k hk
          rcases h3 k hk with h5 | h5
          · rcases wkeys_winsert_mem inner.next_user_data w k inner.wakers h5
              with h6 | h6
            · exact Or.inr (Or.inl ⟨rfl, h6⟩)
            · exact Or.inl h6
          · exact Or.inr (Or.inl ⟨rfl, h5⟩)
        · intro h
          exact h4 (wkeys_winsert_nodup inner.next_user_data w inner.wakers h)

/-- The whole multiplexer system: the shared state behind the mutex
plus the set of logical operations (SubmitFuture instances). -/
structure Sys where
  inner : MuxInner
  futs : List FutState

/-- One step of the system: a new future is created (submit_op), the
kernel delivers a completion, the kernel consumes a submitted slot
(advancing the submission head), or some future is polled under the
lock with an arbitrary environment and waker. -/
inductive SysStep : Sys → Sys → Prop where
  | spawn (s : Sys) : SysStep s ⟨s.inner, s.futs ++ [⟨true, none⟩]⟩
  | deliver (s : Sys) (c : CqeRec) :
      SysStep s ⟨{ s.inner with cq := s.inner.cq ++ [c] }, s.futs⟩
  | advanceHead (s : Sys) :
      SysStep s ⟨{ s.inner with
        sq := ⟨(s.inner.sq.khead + 1) % 2 ^ 32, s.inner.sq.sqe_tail,
          s.inner.sq.ring_entries⟩ }, s.futs⟩
  | poll (s : Sys) (i : Nat) (env : PollEnv) (w : Nat) (fut : FutState)
      (h : s.futs.get? i = some fut) :
      SysStep s ⟨(submitFuturePoll env s.inner fut w).1,
        s.futs.set i (submitFuturePoll env s.inner fut w).2.1⟩

/-- A freshly created tokio AsyncIoUring over a capacity-K ring:
empty completion buffer, empty waker table, tag counter at 1. -/
def initialSys (K : Nat) : Sys := ⟨⟨freshSQ K, [], 0, [], 1⟩, []⟩

/-- The m-th tag handed out by the counter (wrapping u64, starting
at 1). -/
def tagOf (i : Nat) : Nat := (1 + i) % 2 ^ 64

/-- Invariant after m operations have been issued: the counter is at
tagOf m, every registered tag and every future's tag was issued
earlier, the registered tags are pairwise distinct, and every
submitted future carries a tag. -/
def TagInv (s : Sys) (m : Nat) : Prop :=
  s.inner.next_user_data = tagOf m ∧
  (∀ k ∈ wkeys s.inner.wakers, ∃ i, i < m ∧ k = tagOf i) ∧
  (wkeys s.inner.wakers).Nodup ∧
  (∀ fut ∈ s.futs, ∀ ud, fut.user_data = some ud →
    ∃ i, i < m ∧ ud = tagOf i) ∧
  (∀ fut ∈ s.futs, fut.pendingOp = false → fut.user_data ≠ none)

theorem tagOf_ne (i m : Nat) (hi : i < m) (hm : m < 2 ^ 64) :
    tagOf i ≠ tagOf m := by
  unfold tagOf
  omega

theorem tagOf_succ_counter (m : Nat) :
    (tagOf m + 1) % 2 ^ 64 = tagOf (m + 1) := by
  unfold tagOf
  omega

theorem TagInv_initial (K : Nat) : TagInv (initialSys K) 0 := by
  refine ⟨by show (1 : Nat) = tagOf 0; decide, ?_, by exact List.nodup_nil, ?_, ?_⟩
  · intro k hk
    exact absurd hk (by simp [initialSys, wkeys])
  · intro fut hf
    exact absurd hf (by simp [initialSys])
  · intro fut hf
    exact absurd hf (by simp [initialSys])

theorem TagInv_step (s s' : Sys) (m : Nat) (hinv : TagInv s m)
    (hstep : SysStep s s') : ∃ m', m' ≤ m + 1 ∧ TagInv s' m' := by
  obtain ⟨hnext, hkeys, hnd, hfuts, hsome⟩ := hinv
  cases hstep with
  | spawn =>
    refine ⟨m, by omega, hnext, hkeys, hnd, ?_, ?_⟩
    · intro fut hf ud hud
      rcases List.mem_append.mp hf with h1 | h1
      · exact hfuts fut h1 ud hud
      · have : fut = ⟨true, none⟩ := by simpa using h1
        rw [this] at hud
        exact absurd hud (by simp)
    · intro fut hf hop
      rcases List.mem_append.mp hf with h1 | h1
      · exact hsome fut h1 hop
      · have : fut = ⟨true, none⟩ := by simpa using h1
        rw [this] at hop
        exact absurd hop (by simp)
  | deliver c =>
    exact ⟨m, by omega, hnext, hkeys, hnd, hfuts, hsome⟩
  | advanceHead =>
    exact ⟨m, by omega, hnext, hkeys, hnd, hfuts, hsome⟩
  | poll i env w fut hget =>
    have hmem : fut ∈ s.futs := List.get?_mem hget
    obtain ⟨hpt, hpf, hksub, hknd⟩ := poll_effect env s.inner fut w
    rcases hp : fut.pendingOp with _ | _
    · refine ⟨m, by omega, ?_, ?_, hknd hnd, ?_, ?_⟩
      · rw [(hpf hp).1, hnext]
      · intro k hk
        rcases hksub k hk with h1 | h1 | h1
        · exact hkeys k h1
        · exact absurd h1.1 (by simp [hp])
        · obtain ⟨_, hke⟩ := h1
          have hne := hsome fut hmem hp
          rcases hud : fut.user_data with _ | ud
          · exact absurd hud hne
          · obtain ⟨j, hj, hjt⟩ := hfuts fut hmem ud hud
            refine ⟨j, hj, ?_⟩
            rw [hke, hud]
            simpa using hjt
      · intro fut1 hf1 ud hud
        rcases List.mem_or_eq_of_mem_set hf1 with h1 | h1
        · exact hfuts fut1 h1 ud hud
        · rw [h1, (hpf hp).2] at hud
          exact hfuts fut hmem ud hud
      · intro fut1 hf1 hop
        rcases List.mem_or_eq_of_mem_set hf1 with h1 | h1
        · exact hsome fut1 h1 hop
        · rw [h1, (hpf hp).2]
          exact hsome fut hmem hp
    · refine ⟨m + 1, by omega, ?_, ?_, hknd hnd, ?_, ?_⟩
      · rw [(hpt hp).1, hnext, tagOf_succ_counter]
      · intro k hk
        rcases hksub k hk with h1 | h1 | h1
        · obtain ⟨j, hj, hjt⟩ := hkeys k h1
          exact ⟨j, by omega, hjt⟩
        · exact ⟨m, by omega, by rw [h1.2, hnext]⟩
        · exact absurd h1.1 (by simp [hp])
      · intro fut1 hf1 ud hud
        rcases List.mem_or_eq_of_mem_set hf1 with h1 | h1
        · obtain ⟨j, hj, hjt⟩ := hfuts fut1 h1 ud hud
          exact ⟨j, by omega, hjt⟩
        · rw [h1, (hpt hp).2] at hud
          have : ud = s.inner.next_user_data := by simpa using hud.symm
          exact ⟨m, by omega, by rw [this, hnext]⟩
      · intro fut1 hf1 hop
        rcases List.mem_or_eq_of_mem_set hf1 with h1 | h1
        · exact hsome fut1 h1 hop
        · rw [h1, (hpt hp).2]
          simp

theorem TagInv_fresh (s : Sys) (m : Nat) (hinv : TagInv s m)
    (hm : m < 2 ^ 64) :
    (wkeys s.inner.wakers).Nodup ∧
    s.inner.next_user_data ∉ wkeys s.inner.wakers := by
  obtain ⟨hnext, hkeys, hnd, _, _⟩ := hinv
  refine ⟨hnd, ?_⟩
  intro hmem
  obtain ⟨i, hi, hit⟩ := hkeys _ hmem
  rw [hnext] at hit
  exact tagOf_ne i m hi hm hit.symm

theorem asyncStd_tag_const (sr wr : Int) (r : StdRing) :
    (asyncStdSubmitOp sr wr r).2.1 = 1 := by
  unfold asyncStdSubmitOp
  rcases h1 : io_uring_get_sqe r.sq with _ | sq1
  · rfl
  · simp only
    rcases h2 : ring_submit sr with e | n
    · rfl
    · simp only
      rcases h3 : wait_cqe wr ({ r with sq := sq1 } : StdRing).cq.head? with e | c
      · rfl
      · rfl

/-- A concrete async-std ring with two completions pending, so two
consecutive submit_op calls both run to completion. -/
def stdR0 : StdRing := ⟨⟨0, 0, 8⟩, [⟨1, 0, 0⟩, ⟨1, 0, 0⟩], 0⟩

/-- Counterexample to C2 as stated: the async-std multiplexer's
submit_op (one of the claim's cited sources) stamps the fixed tag 1
on every call — two consecutive calls use the same tag, so the tag is
not allocated from a monotonically increasing counter. -/
theorem C2_counterexample :
    (asyncStdSubmitOp 0 0 stdR0).2.1 = 1 ∧
    (asyncStdSubmitOp 0 0 (asyncStdSubmitOp 0 0 stdR0).1).2.1 = 1 ∧
    ¬ (asyncStdSubmitOp 0 0 stdR0).2.1 <
        (asyncStdSubmitOp 0 0 (asyncStdSubmitOp 0 0 stdR0).1).2.1 := by
  refine ⟨by decide, by decide, by decide⟩

/-- C2 (amended): the tokio multiplexer's submit_op allocates each
tag from the monotonically increasing (wrapping u64) counter, and in
every reachable system state the waiting-party table's tags are
pairwise distinct with the next tag fresh as long as fewer than 2^64
operations have been issued; the async-std multiplexer instead stamps
the constant tag 1 on every call (it keeps no waiting-party table and
serializes each operation under the ring lock). -/
theorem C2_tag_allocation :
    (∀ (sr wr : Int) (r : StdRing), (asyncStdSubmitOp sr wr r).2.1 = 1) ∧
    (∀ (env : PollEnv) (inner : MuxInner) (fut : FutState) (w : Nat),
      fut.pendingOp = true →
      (submitFuturePoll env inner fut w).2.1.user_data =
        some inner.next_user_data ∧
      (submitFuturePoll env inner fut w).1.next_user_data =
        (inner.next_user_data + 1) % 2 ^ 64) ∧
    (∀ K : Nat, TagInv (initialSys K) 0) ∧
    (∀ (s s' : Sys) (m : Nat), TagInv s m → SysStep s s' →
      ∃ m', m' ≤ m + 1 ∧ TagInv s' m') ∧
    (∀ (s : Sys) (m : Nat), TagInv s m → m < 2 ^ 64 →
      (wkeys s.inner.wakers).Nodup ∧
      s.inner.next_user_data ∉ wkeys s.inner.wakers) := by
  refine ⟨asyncStd_tag_const, ?_, TagInv_initial, TagInv_step, TagInv_fresh⟩
  intro env inner fut w hp
  obtain ⟨hpt, _, _, _⟩ := poll_effect env inner fut w
  obtain ⟨h1, h2⟩ := hpt hp
  exact ⟨by rw [h2], h1⟩

/-- Witness for C2's amended theorem: the tokio allocation at a
concrete first activation, the invariant across a concrete spawn
step, and freshness at the initial state. -/
theorem C2_witness :
    ((⟨true, none⟩ : FutState).pendingOp = true ∧
      (submitFuturePoll ⟨0, .pending⟩ ⟨⟨0, 0, 8⟩, [], 0, [], 1⟩
        ⟨true, none⟩ 7).2.1.user_data = some 1 ∧
      (submitFuturePoll ⟨0, .pending⟩ ⟨⟨0, 0, 8⟩, [], 0, [], 1⟩
        ⟨true, none⟩ 7).1.next_user_data = 2) ∧
    (∃ m', m' ≤ 0 + 1 ∧
      TagInv ⟨(initialSys 8).inner, (initialSys 8).futs ++ [⟨true, none⟩]⟩ m') ∧
    ((0 : Nat) < 2 ^ 64 ∧
      (wkeys (initialSys 8).inner.wakers).Nodup ∧
      (initialSys 8).inner.next_user_data ∉ wkeys (initialSys 8).inner.wakers) := by
  refine ⟨?_, ?_, ?_⟩
  · have h := C2_tag_allocation.2.1 ⟨0, .pending⟩ ⟨⟨0, 0, 8⟩, [], 0, [], 1⟩
      ⟨true, none⟩ 7 rfl
    exact ⟨rfl, h.1, by rw [h.2]; decide⟩
  · exact C2_tag_allocation.2.2.2.1 (initialSys 8)
      ⟨(initialSys 8).inner, (initialSys 8).futs ++ [⟨true, none⟩]⟩ 0
      (C2_tag_allocation.2.2.1 8) (SysStep.spawn (initialSys 8))
  · exact ⟨by decide, C2_tag_allocation.2.2.2.2 (initialSys 8) 0
      (C2_tag_allocation.2.2.1 8) (by decide)⟩
